import Mathlib

/-!
Verification of the `zerv` version-handling repository.

This file embeds, in Lean, the parts of the repository that the claims
are about:

* the three validation regexes of `src/.dev/python_parser_draft.py`
  (`PEP440_PATTERN`, `SEMVER_PATTERN`, `PVP_PATTERN`) together with the
  `is_valid_pep440` / `is_valid_semver` / `is_valid_pvp` validators,
  via a small regular-expression engine with Brzozowski-derivative
  matching, proved correct against an inductive matching semantics;
* the alias tables `pep440_pre_map` / `pep440_post_map`;
* the canonical-model serialization round trip (modelled from the spec:
  the Rust core is not part of the sources);
* the Python binding helpers `_extend_args` and `_run_zerv_command`
  of `src/python/zerv/__init__.py`, and the `_version` property of
  `src/bakefile.py`.
-/

/-! ## A small regular-expression engine

`RE` mirrors the constructs actually used by the three patterns:
character classes (`cls`), concatenation, alternation, Kleene star,
the empty word and the empty language.  `RMatches r s` is the usual
inductive "word `s` belongs to the language of `r`" semantics, and
`reMatch` is an executable matcher by Brzozowski derivatives, proved
equivalent below. -/

inductive RE where
  | zero : RE
  | eps : RE
  | cls (p : Char → Bool) : RE
  | alt (a b : RE) : RE
  | cat (a b : RE) : RE
  | star (a : RE) : RE

inductive RMatches : RE → List Char → Prop where
  | eps : RMatches .eps []
  | cls {p : Char → Bool} {c : Char} : p c = true → RMatches (.cls p) [c]
  | altL {a b : RE} {s : List Char} : RMatches a s → RMatches (.alt a b) s
  | altR {a b : RE} {s : List Char} : RMatches b s → RMatches (.alt a b) s
  | cat {a b : RE} {s t : List Char} :
      RMatches a s → RMatches b t → RMatches (.cat a b) (s ++ t)
  | starNil {a : RE} : RMatches (.star a) []
  | starCons {a : RE} {s t : List Char} :
      RMatches a s → RMatches (.star a) t → RMatches (.star a) (s ++ t)

theorem RMatches.zero_iff (s : List Char) : RMatches .zero s ↔ False := by
  constructor
  · intro h; cases h
  · intro h; exact h.elim

theorem RMatches.eps_iff (s : List Char) : RMatches .eps s ↔ s = [] := by
  constructor
  · intro h; cases h; rfl
  · rintro rfl; exact .eps

theorem RMatches.cls_iff (p : Char → Bool) (s : List Char) :
    RMatches (.cls p) s ↔ ∃ c, s = [c] ∧ p c = true := by
  constructor
  · intro h; cases h with
    | cls hp => exact ⟨_, rfl, hp⟩
  · rintro ⟨c, rfl, hp⟩; exact .cls hp

theorem RMatches.alt_iff (a b : RE) (s : List Char) :
    RMatches (.alt a b) s ↔ RMatches a s ∨ RMatches b s := by
  constructor
  · intro h; cases h with
    | altL h => exact Or.inl h
    | altR h => exact Or.inr h
  · rintro (h | h)
    · exact .altL h
    · exact .altR h

theorem RMatches.cat_iff (a b : RE) (s : List Char) :
    RMatches (.cat a b) s ↔ ∃ u v, s = u ++ v ∧ RMatches a u ∧ RMatches b v := by
  constructor
  · intro h; cases h with
    | cat ha hb => exact ⟨_, _, rfl, ha, hb⟩
  · rintro ⟨u, v, rfl, ha, hb⟩; exact .cat ha hb

/-- Every match of `star a` splits into a list of chunks each matching `a`. -/
theorem RMatches.star_iff_join (a : RE) (s : List Char) :
    RMatches (.star a) s ↔
      ∃ ss : List (List Char), s = ss.flatten ∧ ∀ x ∈ ss, RMatches a x := by
  constructor
  · intro h
    generalize hr : RE.star a = r at h
    induction h with
    | eps => cases hr
    | cls _ => cases hr
    | altL _ _ => cases hr
    | altR _ _ => cases hr
    | cat _ _ _ _ => cases hr
    | starNil =>
        cases hr
        exact ⟨[], rfl, by simp⟩
    | starCons hs ht _ iht =>
        cases hr
        obtain ⟨ss, rfl, hss⟩ := iht rfl
        refine ⟨_ :: ss, rfl, ?_⟩
        intro x hx
        rcases List.mem_cons.mp hx with hx | hx
        · exact hx ▸ hs
        · exact hss x hx
  · rintro ⟨ss, rfl, hss⟩
    induction ss with
    | nil => exact .starNil
    | cons x xs ih =>
        simp only [List.flatten_cons]
        exact .starCons (hss x (by simp)) (ih fun y hy => hss y (by simp [hy]))

/-- A nonempty match of `star a` has a first chunk containing the first
character. -/
theorem RMatches.star_cons_split {a : RE} {c : Char} {s : List Char}
    (h : RMatches (.star a) (c :: s)) :
    ∃ u v, s = u ++ v ∧ RMatches a (c :: u) ∧ RMatches (.star a) v := by
  rw [RMatches.star_iff_join] at h
  obtain ⟨ss, hs, hss⟩ := h
  revert hss
  revert hs
  revert s
  induction ss with
  | nil =>
      intro s hs _
      simp at hs
  | cons x xs ih =>
      intro s hs hss
      simp only [List.flatten_cons] at hs
      cases x with
      | nil =>
          simp only [List.nil_append] at hs
          exact ih hs fun y hy => hss y (List.mem_cons_of_mem _ hy)
      | cons d t =>
          injection hs with h1 h2
          subst h1
          subst h2
          refine ⟨t, xs.flatten, rfl, hss _ (by simp), ?_⟩
          rw [RMatches.star_iff_join]
          exact ⟨xs, rfl, fun y hy => hss y (by simp [hy])⟩

/-! ### Executable matching by derivatives -/

def RE.nullable : RE → Bool
  | .zero => false
  | .eps => true
  | .cls _ => false
  | .alt a b => a.nullable || b.nullable
  | .cat a b => a.nullable && b.nullable
  | .star _ => true

theorem RMatches.cat_zero_left (b : RE) (s : List Char) :
    RMatches (.cat .zero b) s ↔ False := by
  rw [RMatches.cat_iff]
  simp [RMatches.zero_iff]

theorem RMatches.cat_zero_right (a : RE) (s : List Char) :
    RMatches (.cat a .zero) s ↔ False := by
  rw [RMatches.cat_iff]
  simp [RMatches.zero_iff]

theorem RMatches.cat_eps_left (b : RE) (s : List Char) :
    RMatches (.cat .eps b) s ↔ RMatches b s := by
  rw [RMatches.cat_iff]
  constructor
  · rintro ⟨u, v, rfl, he, hb⟩
    rw [RMatches.eps_iff] at he
    subst he
    simpa using hb
  · intro h
    exact ⟨[], s, by simp, .eps, h⟩

theorem RMatches.cat_eps_right (a : RE) (s : List Char) :
    RMatches (.cat a .eps) s ↔ RMatches a s := by
  rw [RMatches.cat_iff]
  constructor
  · rintro ⟨u, v, rfl, ha, he⟩
    rw [RMatches.eps_iff] at he
    subst he
    simpa using ha
  · intro h
    exact ⟨s, [], by simp, h, .eps⟩

/-- Smart alternation: drops the empty language. -/
def RE.mkAlt : RE → RE → RE
  | .zero, b => b
  | a, .zero => a
  | a, b => .alt a b

/-- Smart concatenation: drops the empty language, simplifies the empty
word. -/
def RE.mkCat : RE → RE → RE
  | .zero, _ => .zero
  | _, .zero => .zero
  | .eps, b => b
  | a, .eps => a
  | a, b => .cat a b

theorem RE.mkAlt_iff (a b : RE) (s : List Char) :
    RMatches (a.mkAlt b) s ↔ RMatches (.alt a b) s := by
  cases a <;> cases b <;>
    simp [RE.mkAlt, RMatches.alt_iff, RMatches.zero_iff]

theorem RE.mkCat_iff (a b : RE) (s : List Char) :
    RMatches (a.mkCat b) s ↔ RMatches (.cat a b) s := by
  cases a <;> cases b <;>
    simp [RE.mkCat, RMatches.cat_zero_left, RMatches.cat_zero_right,
      RMatches.cat_eps_left, RMatches.cat_eps_right, RMatches.zero_iff]

def RE.deriv : RE → Char → RE
  | .zero, _ => .zero
  | .eps, _ => .zero
  | .cls p, c => if p c then .eps else .zero
  | .alt a b, c => (a.deriv c).mkAlt (b.deriv c)
  | .cat a b, c =>
      if a.nullable then ((a.deriv c).mkCat b).mkAlt (b.deriv c)
      else (a.deriv c).mkCat b
  | .star a, c => (a.deriv c).mkCat (.star a)

theorem RE.nullable_iff (r : RE) : r.nullable = true ↔ RMatches r [] := by
  induction r with
  | zero => simp [RE.nullable, RMatches.zero_iff]
  | eps => simp [RE.nullable, RMatches.eps_iff]
  | cls p => simp [RE.nullable, RMatches.cls_iff]
  | alt a b iha ihb =>
      simp [RE.nullable, RMatches.alt_iff, iha, ihb]
  | cat a b iha ihb =>
      simp only [RE.nullable, Bool.and_eq_true, iha, ihb, RMatches.cat_iff]
      constructor
      · rintro ⟨ha, hb⟩; exact ⟨[], [], rfl, ha, hb⟩
      · rintro ⟨u, v, huv, ha, hb⟩
        obtain ⟨rfl, rfl⟩ := List.append_eq_nil.mp huv.symm
        exact ⟨ha, hb⟩
  | star a ih =>
      constructor
      · intro _; exact .starNil
      · intro _; rfl

theorem RE.deriv_iff (r : RE) (c : Char) (s : List Char) :
    RMatches (r.deriv c) s ↔ RMatches r (c :: s) := by
  induction r generalizing s with
  | zero => simp [RE.deriv, RMatches.zero_iff]
  | eps =>
      simp only [RE.deriv, RMatches.zero_iff, RMatches.eps_iff, false_iff]
      intro h
      cases h
  | cls p =>
      simp only [RE.deriv]
      by_cases hp : p c = true
      · rw [if_pos hp]
        constructor
        · intro h
          cases h
          exact .cls hp
        · intro h
          rw [RMatches.cls_iff] at h
          obtain ⟨c', hc, _⟩ := h
          injection hc with h1 h2
          rw [h2]
          exact .eps
      · rw [if_neg hp]
        rw [RMatches.zero_iff, false_iff, RMatches.cls_iff]
        rintro ⟨c', hc, hpc⟩
        injection hc with h1 h2
        subst h1
        exact hp hpc
  | alt a b iha ihb =>
      simp [RE.deriv, RE.mkAlt_iff, RMatches.alt_iff, iha, ihb]
  | cat a b iha ihb =>
      by_cases hn : a.nullable = true
      · simp only [RE.deriv, hn, if_pos, RE.mkAlt_iff, RE.mkCat_iff,
          RMatches.alt_iff, RMatches.cat_iff]
        constructor
        · rintro (⟨u, v, rfl, ha, hb⟩ | hb)
          · exact ⟨c :: u, v, rfl, (iha u).mp ha, hb⟩
          · exact ⟨[], c :: s, rfl, (RE.nullable_iff a).mp hn, (ihb s).mp hb⟩
        · rintro ⟨u, v, huv, ha, hb⟩
          cases u with
          | nil =>
              simp only [List.nil_append] at huv
              exact Or.inr ((ihb s).mpr (by rw [huv]; exact hb))
          | cons d u' =>
              injection huv with h1 h2
              subst h1
              subst h2
              exact Or.inl ⟨u', v, rfl, (iha u').mpr ha, hb⟩
      · rw [RE.deriv, if_neg hn]
        simp only [RE.mkCat_iff, RMatches.cat_iff]
        constructor
        · rintro ⟨u, v, rfl, ha, hb⟩
          exact ⟨c :: u, v, rfl, (iha u).mp ha, hb⟩
        · rintro ⟨u, v, huv, ha, hb⟩
          cases u with
          | nil =>
              exact absurd ((RE.nullable_iff a).mpr ha) (by simpa using hn)
          | cons d u' =>
              injection huv with h1 h2
              subst h1
              subst h2
              exact ⟨u', v, rfl, (iha u').mpr ha, hb⟩
  | star a ih =>
      simp only [RE.deriv, RE.mkCat_iff, RMatches.cat_iff]
      constructor
      · rintro ⟨u, v, rfl, ha, hb⟩
        simpa using RMatches.starCons ((ih u).mp ha) hb
      · intro h
        obtain ⟨u, v, rfl, ha, hb⟩ := RMatches.star_cons_split h
        exact ⟨u, v, rfl, (ih u).mpr ha, hb⟩

/-- Full-string matching by iterated derivatives. -/
def reMatch (r : RE) : List Char → Bool
  | [] => r.nullable
  | c :: s => reMatch (r.deriv c) s

theorem reMatch_iff (r : RE) (s : List Char) :
    reMatch r s = true ↔ RMatches r s := by
  induction s generalizing r with
  | nil => simpa [reMatch] using RE.nullable_iff r
  | cons c s ih => simpa [reMatch, ih] using RE.deriv_iff r c s

/-- Matching of some initial segment of the input (Python `re.match` with
no end anchor). -/
def reMatchStart (r : RE) : List Char → Bool
  | [] => r.nullable
  | c :: s => r.nullable || reMatchStart (r.deriv c) s

theorem reMatchStart_iff (r : RE) (s : List Char) :
    reMatchStart r s = true ↔ ∃ p q, s = p ++ q ∧ RMatches r p := by
  induction s generalizing r with
  | nil =>
      simp only [reMatchStart, RE.nullable_iff]
      constructor
      · intro h; exact ⟨[], [], rfl, h⟩
      · rintro ⟨p, q, hpq, hp⟩
        obtain ⟨rfl, rfl⟩ := List.append_eq_nil.mp hpq.symm
        exact hp
  | cons c s ih =>
      simp only [reMatchStart, Bool.or_eq_true, RE.nullable_iff, ih]
      constructor
      · rintro (h | ⟨p, q, rfl, hp⟩)
        · exact ⟨[], c :: s, rfl, h⟩
        · exact ⟨c :: p, q, rfl, (RE.deriv_iff r c p).mp hp⟩
      · rintro ⟨p, q, hpq, hp⟩
        cases p with
        | nil =>
            exact Or.inl hp
        | cons d p' =>
            injection hpq with h1 h2
            subst h1
            subst h2
            exact Or.inr ⟨p', q, rfl, (RE.deriv_iff r c p').mpr hp⟩

/-- Full matching with Python `$` end-anchor semantics: `$` also matches
just before a single newline at the very end of the string. -/
def reMatchDollar (r : RE) (s : List Char) : Bool :=
  reMatch r s ||
    (if s.getLast? = some '\n' then reMatch r s.dropLast else false)

theorem reMatchDollar_iff (r : RE) (s : List Char) :
    reMatchDollar r s = true ↔
      RMatches r s ∨ ∃ t, s = t ++ ['\n'] ∧ RMatches r t := by
  unfold reMatchDollar
  by_cases hl : s.getLast? = some '\n'
  · obtain ⟨t, rfl⟩ := List.getLast?_eq_some_iff.mp hl
    rw [if_pos hl]
    simp only [Bool.or_eq_true, reMatch_iff, List.dropLast_concat]
    constructor
    · rintro (h | h)
      · exact Or.inl h
      · exact Or.inr ⟨t, rfl, h⟩
    · rintro (h | ⟨u, hu, h⟩)
      · exact Or.inl h
      · have ht : u = t := by simpa using congrArg List.dropLast hu.symm
        exact Or.inr (ht ▸ h)
  · rw [if_neg hl]
    simp only [Bool.or_false, reMatch_iff]
    constructor
    · exact Or.inl
    · rintro (h | ⟨u, rfl, h⟩)
      · exact h
      · exact absurd (List.getLast?_concat u) hl

/-! ## The three grammars of `src/.dev/python_parser_draft.py`

Transcribed construct-by-construct from `PEP440_PATTERN` (lines 49-78),
`SEMVER_PATTERN` (lines 80-95) and `PVP_PATTERN` (lines 97-101).  All
three are compiled with `re.VERBOSE | re.IGNORECASE` and used through
`re.match`; `re.IGNORECASE` is modelled by lower-casing the input
(every literal in the patterns is lower case and every character class
is either case-symmetric or all lower case), `re.match` by
`reMatchStart` (no end anchor in `PEP440_PATTERN`) respectively
`reMatchDollar` (explicit `^...$` in the other two patterns). -/

def isSepChar (c : Char) : Bool := c == '-' || c == '_' || c == '.'

def isNonZeroDigit (c : Char) : Bool := '1' ≤ c && c ≤ '9'

def isLowerAlphaNum (c : Char) : Bool := c.isDigit || ('a' ≤ c && c ≤ 'z')

def isAlphaDash (c : Char) : Bool :=
  ('a' ≤ c && c ≤ 'z') || ('A' ≤ c && c ≤ 'Z') || c == '-'

def isAlnumDash (c : Char) : Bool :=
  c.isDigit || ('a' ≤ c && c ≤ 'z') || ('A' ≤ c && c ≤ 'Z') || c == '-'

def isAlnumChar (c : Char) : Bool :=
  c.isDigit || ('a' ≤ c && c ≤ 'z') || ('A' ≤ c && c ≤ 'Z')

def chr (c : Char) : RE := .cls (fun x => x == c)

def strRE (w : String) : RE := w.data.foldr (fun c r => .cat (chr c) r) .eps

def strAlt (ws : List String) : RE := (ws.map strRE).foldr .alt .zero

def reOpt (r : RE) : RE := .alt r .eps

def rePlus (r : RE) : RE := .cat r (.star r)

/-- `[0-9]+` -/
def rDigits : RE := rePlus (.cls Char.isDigit)

/-- `[0-9]+(?:\.[0-9]+)*` — the release segment / `BASE_PATTERN`. -/
def rRelease : RE := .cat rDigits (.star (.cat (chr '.') rDigits))

/-- `(?:(?P<epoch>[0-9]+)!)?` -/
def rEpoch : RE := reOpt (.cat rDigits (chr '!'))

/-- `[-_\.]?` -/
def rSepOpt : RE := reOpt (.cls isSepChar)

/-- `(?P<pre_n>[0-9]+)?` and friends -/
def rOptDigits : RE := reOpt rDigits

/-- The alternatives of the `pre_l` group: `alpha|a|beta|b|preview|pre|c|rc`. -/
def pep440PreSpellings : List String :=
  ["alpha", "a", "beta", "b", "preview", "pre", "c", "rc"]

/-- The `(?P<pre> ...)?` group. -/
def rPre : RE :=
  reOpt (.cat rSepOpt (.cat (strAlt pep440PreSpellings) (.cat rSepOpt rOptDigits)))

/-- `(?:-(?P<post_n1>[0-9]+))` — the bare post-release branch. -/
def rPostBare : RE := .cat (chr '-') rDigits

/-- The alternatives of the `post_l` group: `post|rev|r`. -/
def pep440PostSpellings : List String := ["post", "rev", "r"]

/-- `(?:[-_\.]?(?P<post_l>post|rev|r)[-_\.]?(?P<post_n2>[0-9]+)?)` -/
def rPostLabeled : RE :=
  .cat rSepOpt (.cat (strAlt pep440PostSpellings) (.cat rSepOpt rOptDigits))

/-- The body of the `(?P<post> ...)?` group. -/
def rPostInner : RE := .alt rPostBare rPostLabeled

def rPost : RE := reOpt rPostInner

/-- The `(?P<dev> ...)?` group. -/
def rDev : RE :=
  reOpt (.cat rSepOpt (.cat (strRE "dev") (.cat rSepOpt rOptDigits)))

/-- `[a-z0-9]+` (the input is lower-cased, mirroring `re.IGNORECASE`). -/
def rLocalPart : RE := rePlus (.cls isLowerAlphaNum)

/-- `(?:\+(?P<local>[a-z0-9]+(?:[-_\.][a-z0-9]+)*))?` -/
def rLocal : RE :=
  reOpt (.cat (chr '+') (.cat rLocalPart (.star (.cat (.cls isSepChar) rLocalPart))))

/-- `PEP440_PATTERN` (no anchors: matched from the start only). -/
def PEP440_PATTERN : RE :=
  .cat (reOpt (chr 'v'))
    (.cat rEpoch (.cat rRelease (.cat rPre (.cat rPost (.cat rDev rLocal)))))

/-- `0|[1-9]\d*` — major/minor/patch. -/
def rNumId : RE :=
  .alt (chr '0') (.cat (.cls isNonZeroDigit) (.star (.cls Char.isDigit)))

/-- `0|[1-9]\d*|\d*[a-zA-Z-][0-9a-zA-Z-]*` — one prerelease identifier. -/
def rPreId : RE :=
  .alt (chr '0')
    (.alt (.cat (.cls isNonZeroDigit) (.star (.cls Char.isDigit)))
      (.cat (.star (.cls Char.isDigit)) (.cat (.cls isAlphaDash) (.star (.cls isAlnumDash)))))

/-- The `prerelease` group: identifiers separated by dots. -/
def rPrerelease : RE := .cat rPreId (.star (.cat (chr '.') rPreId))

/-- `[0-9a-zA-Z-]+` — one build-metadata identifier. -/
def rBuildId : RE := rePlus (.cls isAlnumDash)

/-- The `buildmetadata` group. -/
def rBuildMeta : RE := .cat rBuildId (.star (.cat (chr '.') rBuildId))

/-- `SEMVER_PATTERN` (anchored `^...$`). -/
def SEMVER_PATTERN : RE :=
  .cat (reOpt (chr 'v'))
    (.cat rNumId (.cat (chr '.') (.cat rNumId (.cat (chr '.')
      (.cat rNumId (.cat (reOpt (.cat (chr '-') rPrerelease))
        (reOpt (.cat (chr '+') rBuildMeta))))))))

/-- `(?P<version>[0-9]+(?:\.[0-9]+)+)` — note the final `+`: at least one
dot is required. -/
def rPvpNum : RE := .cat rDigits (rePlus (.cat (chr '.') rDigits))

/-- `(?P<tags>-[a-zA-Z0-9]+(?:-[a-zA-Z0-9]+)*)?` -/
def rPvpTags : RE :=
  reOpt (.cat (chr '-')
    (.cat (rePlus (.cls isAlnumChar)) (.star (.cat (chr '-') (rePlus (.cls isAlnumChar))))))

/-- `PVP_PATTERN` (anchored `^...$`). -/
def PVP_PATTERN : RE := .cat (reOpt (chr 'v')) (.cat rPvpNum rPvpTags)

/-- `re.IGNORECASE` is modelled by lower-casing the input. -/
def toLowerChars (s : String) : List Char := s.data.map Char.toLower

/-- `is_valid_pep440 = lambda v: _pep440_regex.match(v) is not None`
(line 107): `re.match` anchors at the start only. -/
def is_valid_pep440 (v : String) : Bool :=
  reMatchStart PEP440_PATTERN (toLowerChars v)

/-- `is_valid_semver` (line 108): the pattern carries its own `^`/`$`. -/
def is_valid_semver (v : String) : Bool :=
  reMatchDollar SEMVER_PATTERN (toLowerChars v)

/-- `is_valid_pvp` (line 109): the pattern carries its own `^`/`$`. -/
def is_valid_pvp (v : String) : Bool :=
  reMatchDollar PVP_PATTERN (toLowerChars v)


/-! ## Language characterizations of the building blocks -/

theorem chr_iff (c : Char) (s : List Char) :
    RMatches (chr c) s ↔ s = [c] := by
  simp [chr, RMatches.cls_iff]

theorem strRE_iff (w : String) (s : List Char) :
    RMatches (strRE w) s ↔ s = w.data := by
  unfold strRE
  generalize w.data = l
  induction l generalizing s with
  | nil => simp [RMatches.eps_iff]
  | cons c t ih =>
      simp only [List.foldr_cons, RMatches.cat_iff, chr_iff, ih]
      constructor
      · rintro ⟨u, v, rfl, rfl, rfl⟩
        rfl
      · rintro rfl
        exact ⟨[c], t, rfl, rfl, rfl⟩

theorem strAlt_iff (ws : List String) (s : List Char) :
    RMatches (strAlt ws) s ↔ ∃ w ∈ ws, s = w.data := by
  unfold strAlt
  induction ws with
  | nil => simp [RMatches.zero_iff]
  | cons w t ih =>
      simp only [List.map_cons, List.foldr_cons, RMatches.alt_iff, strRE_iff, ih]
      constructor
      · rintro (rfl | ⟨w', hw', rfl⟩)
        · exact ⟨w, by simp, rfl⟩
        · exact ⟨w', by simp [hw'], rfl⟩
      · rintro ⟨w', hw', rfl⟩
        rcases List.mem_cons.mp hw' with rfl | hw'
        · exact Or.inl rfl
        · exact Or.inr ⟨w', hw', rfl⟩

theorem reOpt_iff (r : RE) (s : List Char) :
    RMatches (reOpt r) s ↔ s = [] ∨ RMatches r s := by
  simp [reOpt, RMatches.alt_iff, RMatches.eps_iff, or_comm]

theorem clsStar_iff (p : Char → Bool) (s : List Char) :
    RMatches (.star (.cls p)) s ↔ ∀ c ∈ s, p c = true := by
  constructor
  · intro h
    rw [RMatches.star_iff_join] at h
    obtain ⟨ss, rfl, hss⟩ := h
    intro c hc
    obtain ⟨x, hx, hcx⟩ := List.mem_flatten.mp hc
    obtain ⟨c', rfl, hp⟩ := (RMatches.cls_iff p x).mp (hss x hx)
    obtain rfl : c = c' := by simpa using hcx
    exact hp
  · intro h
    induction s with
    | nil => exact .starNil
    | cons c t ih =>
        have : RMatches (.star (.cls p)) ([c] ++ t) :=
          .starCons (.cls (h c (by simp))) (ih fun d hd => h d (by simp [hd]))
        simpa using this

theorem clsPlus_iff (p : Char → Bool) (s : List Char) :
    RMatches (rePlus (.cls p)) s ↔ s ≠ [] ∧ ∀ c ∈ s, p c = true := by
  unfold rePlus
  rw [RMatches.cat_iff]
  constructor
  · rintro ⟨u, v, rfl, hu, hv⟩
    obtain ⟨c, rfl, hp⟩ := (RMatches.cls_iff p u).mp hu
    rw [clsStar_iff] at hv
    refine ⟨by simp, ?_⟩
    intro d hd
    rcases List.mem_cons.mp (by simpa using hd) with rfl | hd
    · exact hp
    · exact hv d hd
  · rintro ⟨hne, hall⟩
    cases s with
    | nil => exact absurd rfl hne
    | cons c t =>
        refine ⟨[c], t, rfl, .cls (hall c (by simp)), ?_⟩
        rw [clsStar_iff]
        exact fun d hd => hall d (by simp [hd])

/-- Characterization of `(sep item)*` where the separator is a single
character class: the word splits into `(separator, item)` chunks. -/
theorem clsSepStar_iff (q : Char → Bool) (r : RE) (P : List Char → Prop)
    (hr : ∀ s, RMatches r s ↔ P s) (l : List Char) :
    RMatches (.star (.cat (.cls q) r)) l ↔
      ∃ pairs : List (Char × List Char),
        (∀ cp ∈ pairs, q cp.1 = true ∧ P cp.2) ∧
        l = (pairs.map (fun cp => cp.1 :: cp.2)).flatten := by
  rw [RMatches.star_iff_join]
  constructor
  · rintro ⟨ss, rfl, hss⟩
    induction ss with
    | nil => exact ⟨[], by simp, rfl⟩
    | cons x xs ih =>
        obtain ⟨pairs, hp, hflat⟩ := ih fun y hy => hss y (by simp [hy])
        obtain ⟨u, v, rfl, hu, hv⟩ := (RMatches.cat_iff _ _ x).mp (hss x (by simp))
        obtain ⟨c, rfl, hq⟩ := (RMatches.cls_iff q u).mp hu
        refine ⟨(c, v) :: pairs, ?_, ?_⟩
        · intro cp hcp
          rcases List.mem_cons.mp hcp with rfl | hcp
          · exact ⟨hq, (hr v).mp hv⟩
          · exact hp cp hcp
        · simp [hflat]
  · rintro ⟨pairs, hp, rfl⟩
    refine ⟨pairs.map (fun cp => cp.1 :: cp.2), rfl, ?_⟩
    intro x hx
    obtain ⟨cp, hcp, rfl⟩ := List.mem_map.mp hx
    have h1 := hp cp hcp
    have : RMatches (.cat (.cls q) r) ([cp.1] ++ cp.2) :=
      .cat (.cls h1.1) ((hr cp.2).mpr h1.2)
    simpa using this

/-- Specialization: the separator is one fixed character. -/
theorem sepStar_iff (d : Char) (r : RE) (P : List Char → Prop)
    (hr : ∀ s, RMatches r s ↔ P s) (l : List Char) :
    RMatches (.star (.cat (chr d) r)) l ↔
      ∃ parts : List (List Char),
        (∀ p ∈ parts, P p) ∧ l = (parts.map (d :: ·)).flatten := by
  simp only [chr]
  rw [clsSepStar_iff (fun x => x == d) r P hr l]
  constructor
  · rintro ⟨pairs, hp, rfl⟩
    refine ⟨pairs.map Prod.snd, ?_, ?_⟩
    · intro p hp'
      obtain ⟨cp, hcp, rfl⟩ := List.mem_map.mp hp'
      exact (hp cp hcp).2
    · rw [List.map_map]
      congr 1
      apply List.map_congr_left
      intro cp hcp
      have := (hp cp hcp).1
      simp only [Function.comp_apply]
      congr 1
      exact beq_iff_eq.mp this
  · rintro ⟨parts, hp, rfl⟩
    refine ⟨parts.map (fun p => (d, p)), ?_, by rw [List.map_map]; rfl⟩
    intro cp hcp
    obtain ⟨p, hp', rfl⟩ := List.mem_map.mp hcp
    exact ⟨by simp, hp p hp'⟩

/-- `item (sep item)*` with a single-character separator. -/
theorem sepList_iff (d : Char) (r : RE) (P : List Char → Prop)
    (hr : ∀ s, RMatches r s ↔ P s) (l : List Char) :
    RMatches (.cat r (.star (.cat (chr d) r))) l ↔
      ∃ (first : List Char) (rest : List (List Char)), P first ∧ (∀ p ∈ rest, P p) ∧
        l = first ++ (rest.map (d :: ·)).flatten := by
  rw [RMatches.cat_iff]
  constructor
  · rintro ⟨u, v, rfl, hu, hv⟩
    obtain ⟨parts, hp, rfl⟩ := (sepStar_iff d r P hr v).mp hv
    exact ⟨u, parts, (hr u).mp hu, hp, rfl⟩
  · rintro ⟨first, rest, h1, h2, rfl⟩
    exact ⟨first, _, rfl, (hr first).mpr h1, (sepStar_iff d r P hr _).mpr ⟨rest, h2, rfl⟩⟩

/-- `(sep item)+` with a single-character separator. -/
theorem sepPlus_iff (d : Char) (r : RE) (P : List Char → Prop)
    (hr : ∀ s, RMatches r s ↔ P s) (l : List Char) :
    RMatches (rePlus (.cat (chr d) r)) l ↔
      ∃ parts : List (List Char), parts ≠ [] ∧
        (∀ p ∈ parts, P p) ∧ l = (parts.map (d :: ·)).flatten := by
  unfold rePlus
  rw [RMatches.cat_iff]
  constructor
  · rintro ⟨u, v, rfl, hu, hv⟩
    obtain ⟨u1, u2, rfl, hd, hu2⟩ := (RMatches.cat_iff _ _ u).mp hu
    rw [chr_iff] at hd
    subst hd
    obtain ⟨parts, hp, rfl⟩ := (sepStar_iff d r P hr v).mp hv
    refine ⟨u2 :: parts, by simp, ?_, by simp⟩
    intro p hp'
    rcases List.mem_cons.mp hp' with rfl | hp'
    · exact (hr p).mp hu2
    · exact hp p hp'
  · rintro ⟨parts, hne, hp, rfl⟩
    cases parts with
    | nil => exact absurd rfl hne
    | cons p ps =>
        refine ⟨d :: p, (ps.map (d :: ·)).flatten, by simp, ?_, ?_⟩
        · have : RMatches (.cat (chr d) r) ([d] ++ p) :=
            .cat ((chr_iff d [d]).mpr rfl) ((hr p).mpr (hp p (by simp)))
          simpa using this
        · exact (sepStar_iff d r P hr _).mpr ⟨ps, fun x hx => hp x (by simp [hx]), rfl⟩

/-! ## Spec-level shapes of the grammars -/

/-- A non-empty run of ASCII digits. -/
def allDigits (l : List Char) : Prop := l ≠ [] ∧ ∀ c ∈ l, c.isDigit = true

/-- `.p₁.p₂…pₙ` for a list of parts. -/
def dotParts (parts : List (List Char)) : List Char :=
  (parts.map ('.' :: ·)).flatten

/-- The optional `v` of `v?`. -/
def optV (v : List Char) : Prop := v = [] ∨ v = ['v']

/-- The optional separator `[-_\.]?`. -/
def sepOptForm (o : List Char) : Prop :=
  o = [] ∨ ∃ c, o = [c] ∧ isSepChar c = true

/-- The optional number `[0-9]+?`. -/
def optNumForm (n : List Char) : Prop := n = [] ∨ allDigits n

/-- One or more dot-separated digit runs. -/
def releaseForm (l : List Char) : Prop :=
  ∃ (first : List Char) (rest : List (List Char)),
    allDigits first ∧ (∀ p ∈ rest, allDigits p) ∧ l = first ++ dotParts rest

/-- The optional `epoch!`. -/
def epochForm (l : List Char) : Prop :=
  l = [] ∨ ∃ d : List Char, allDigits d ∧ l = d ++ ['!']

/-- A `sep? word sep? number?` segment, `word` constrained by `M`. -/
def segForm (M : List Char → Prop) (l : List Char) : Prop :=
  ∃ o1 w o2 n : List Char,
    sepOptForm o1 ∧ M w ∧ sepOptForm o2 ∧ optNumForm n ∧ l = o1 ++ w ++ o2 ++ n

/-- The optional pre-release segment. -/
def preForm (l : List Char) : Prop :=
  l = [] ∨ segForm (fun w => ∃ sp ∈ pep440PreSpellings, w = sp.data) l

/-- The bare `-N` post-release. -/
def postBareForm (l : List Char) : Prop :=
  ∃ d : List Char, allDigits d ∧ l = '-' :: d

/-- The optional post-release segment: bare `-N`, or labelled. -/
def postForm (l : List Char) : Prop :=
  l = [] ∨ postBareForm l ∨
    segForm (fun w => ∃ sp ∈ pep440PostSpellings, w = sp.data) l

/-- The optional dev-release segment. -/
def devForm (l : List Char) : Prop :=
  l = [] ∨ segForm (· = "dev".data) l

/-- One local-version identifier. -/
def localPartForm (p : List Char) : Prop :=
  p ≠ [] ∧ ∀ c ∈ p, isLowerAlphaNum c = true

/-- The optional `+local` segment. -/
def localForm (l : List Char) : Prop :=
  l = [] ∨ ∃ (first : List Char) (pairs : List (Char × List Char)),
    localPartForm first ∧ (∀ cp ∈ pairs, isSepChar cp.1 = true ∧ localPartForm cp.2) ∧
    l = '+' :: (first ++ (pairs.map (fun cp => cp.1 :: cp.2)).flatten)

/-- The full PEP 440 shape: `v? epoch? release pre? post? dev? local?`. -/
def pep440Form (l : List Char) : Prop :=
  ∃ v e r pr po dv lo : List Char,
    optV v ∧ epochForm e ∧ releaseForm r ∧ preForm pr ∧ postForm po ∧
    devForm dv ∧ localForm lo ∧ l = v ++ (e ++ (r ++ (pr ++ (po ++ (dv ++ lo)))))

theorem rDigits_iff (s : List Char) : RMatches rDigits s ↔ allDigits s := by
  unfold rDigits allDigits
  exact clsPlus_iff _ s

theorem optV_iff (s : List Char) : RMatches (reOpt (chr 'v')) s ↔ optV s := by
  rw [reOpt_iff, chr_iff]
  rfl

theorem rSepOpt_iff (s : List Char) : RMatches rSepOpt s ↔ sepOptForm s := by
  unfold rSepOpt sepOptForm
  rw [reOpt_iff, RMatches.cls_iff]

theorem rOptDigits_iff (s : List Char) : RMatches rOptDigits s ↔ optNumForm s := by
  unfold rOptDigits optNumForm
  rw [reOpt_iff, rDigits_iff]

theorem rRelease_iff (s : List Char) : RMatches rRelease s ↔ releaseForm s := by
  unfold rRelease releaseForm dotParts
  exact sepList_iff '.' rDigits allDigits rDigits_iff s

theorem rEpoch_iff (s : List Char) : RMatches rEpoch s ↔ epochForm s := by
  unfold rEpoch epochForm
  rw [reOpt_iff, RMatches.cat_iff]
  constructor
  · rintro (rfl | ⟨u, v, rfl, hu, hv⟩)
    · exact Or.inl rfl
    · rw [rDigits_iff] at hu
      rw [chr_iff] at hv
      subst hv
      exact Or.inr ⟨u, hu, rfl⟩
  · rintro (rfl | ⟨d, hd, rfl⟩)
    · exact Or.inl rfl
    · exact Or.inr ⟨d, ['!'], rfl, (rDigits_iff d).mpr hd, (chr_iff '!' _).mpr rfl⟩

theorem seg_iff (m : RE) (M : List Char → Prop) (hm : ∀ s, RMatches m s ↔ M s)
    (s : List Char) :
    RMatches (.cat rSepOpt (.cat m (.cat rSepOpt rOptDigits))) s ↔ segForm M s := by
  simp only [RMatches.cat_iff, rSepOpt_iff, hm, rOptDigits_iff, segForm]
  constructor
  · rintro ⟨o1, _, rfl, h1, w, _, rfl, hw, o2, n, rfl, h2, h3⟩
    exact ⟨o1, w, o2, n, h1, hw, h2, h3, by simp [List.append_assoc]⟩
  · rintro ⟨o1, w, o2, n, h1, hw, h2, h3, rfl⟩
    refine ⟨o1, w ++ (o2 ++ n), ?_, h1, w, o2 ++ n, rfl, hw, o2, n, rfl, h2, h3⟩
    simp [List.append_assoc]

theorem strAltPre_iff (s : List Char) :
    RMatches (strAlt pep440PreSpellings) s ↔
      ∃ sp ∈ pep440PreSpellings, s = sp.data :=
  strAlt_iff pep440PreSpellings s

theorem rPre_iff (s : List Char) : RMatches rPre s ↔ preForm s := by
  unfold rPre preForm
  rw [reOpt_iff, seg_iff _ _ strAltPre_iff]

theorem rPostBare_iff (s : List Char) : RMatches rPostBare s ↔ postBareForm s := by
  unfold rPostBare postBareForm
  rw [RMatches.cat_iff]
  constructor
  · rintro ⟨u, v, rfl, hu, hv⟩
    rw [chr_iff] at hu
    subst hu
    exact ⟨v, (rDigits_iff v).mp hv, rfl⟩
  · rintro ⟨d, hd, rfl⟩
    exact ⟨['-'], d, rfl, (chr_iff '-' _).mpr rfl, (rDigits_iff d).mpr hd⟩

theorem rPost_iff (s : List Char) : RMatches rPost s ↔ postForm s := by
  unfold rPost rPostInner rPostLabeled postForm
  rw [reOpt_iff, RMatches.alt_iff, rPostBare_iff,
    seg_iff _ _ (strAlt_iff pep440PostSpellings)]

theorem rDev_iff (s : List Char) : RMatches rDev s ↔ devForm s := by
  unfold rDev devForm
  rw [reOpt_iff, seg_iff (strRE "dev") (· = "dev".data) (strRE_iff "dev")]

theorem rLocalPart_iff (s : List Char) :
    RMatches rLocalPart s ↔ localPartForm s := by
  unfold rLocalPart localPartForm
  exact clsPlus_iff _ s

theorem rLocal_iff (s : List Char) : RMatches rLocal s ↔ localForm s := by
  unfold rLocal localForm
  rw [reOpt_iff]
  apply or_congr Iff.rfl
  rw [RMatches.cat_iff]
  constructor
  · rintro ⟨u, v, rfl, hu, hv⟩
    rw [chr_iff] at hu
    subst hu
    obtain ⟨f, w, rfl, hf, hw⟩ := (RMatches.cat_iff _ _ v).mp hv
    obtain ⟨pairs, hp, rfl⟩ :=
      (clsSepStar_iff isSepChar rLocalPart localPartForm rLocalPart_iff w).mp hw
    exact ⟨f, pairs, (rLocalPart_iff f).mp hf, hp, rfl⟩
  · rintro ⟨f, pairs, hf, hp, rfl⟩
    refine ⟨['+'], _, rfl, (chr_iff '+' _).mpr rfl, ?_⟩
    exact (RMatches.cat_iff _ _ _).mpr ⟨f, _, rfl, (rLocalPart_iff f).mpr hf,
      (clsSepStar_iff isSepChar rLocalPart localPartForm rLocalPart_iff _).mpr
        ⟨pairs, hp, rfl⟩⟩

/-- The PEP 440 pattern matches exactly the words of `pep440Form`. -/
theorem PEP440_PATTERN_iff (l : List Char) :
    RMatches PEP440_PATTERN l ↔ pep440Form l := by
  unfold PEP440_PATTERN
  constructor
  · intro h
    obtain ⟨v, t, rfl, hv, h⟩ := (RMatches.cat_iff _ _ _).mp h
    obtain ⟨e, t, rfl, he, h⟩ := (RMatches.cat_iff _ _ _).mp h
    obtain ⟨r, t, rfl, hr', h⟩ := (RMatches.cat_iff _ _ _).mp h
    obtain ⟨pr, t, rfl, hpr, h⟩ := (RMatches.cat_iff _ _ _).mp h
    obtain ⟨po, t, rfl, hpo, h⟩ := (RMatches.cat_iff _ _ _).mp h
    obtain ⟨dv, lo, rfl, hdv, hlo⟩ := (RMatches.cat_iff _ _ _).mp h
    exact ⟨v, e, r, pr, po, dv, lo, (optV_iff v).mp hv, (rEpoch_iff e).mp he,
      (rRelease_iff r).mp hr', (rPre_iff pr).mp hpr, (rPost_iff po).mp hpo,
      (rDev_iff dv).mp hdv, (rLocal_iff lo).mp hlo, rfl⟩
  · rintro ⟨v, e, r, pr, po, dv, lo, hv, he, hr', hpr, hpo, hdv, hlo, rfl⟩
    exact .cat ((optV_iff v).mpr hv) (.cat ((rEpoch_iff e).mpr he)
      (.cat ((rRelease_iff r).mpr hr') (.cat ((rPre_iff pr).mpr hpr)
        (.cat ((rPost_iff po).mpr hpo)
          (.cat ((rDev_iff dv).mpr hdv) ((rLocal_iff lo).mpr hlo))))))

/-- `0|[1-9]\d*`. -/
def numIdForm (n : List Char) : Prop :=
  n = ['0'] ∨ ∃ (c : Char) (t : List Char),
    n = c :: t ∧ isNonZeroDigit c = true ∧ ∀ d ∈ t, d.isDigit = true

/-- `0|[1-9]\d*|\d*[a-zA-Z-][0-9a-zA-Z-]*` — one prerelease identifier. -/
def preIdForm (p : List Char) : Prop :=
  numIdForm p ∨ ∃ (d : List Char) (m : Char) (t : List Char),
    p = d ++ m :: t ∧ (∀ c ∈ d, c.isDigit = true) ∧ isAlphaDash m = true ∧
    ∀ c ∈ t, isAlnumDash c = true

/-- One build-metadata identifier. -/
def buildIdForm (b : List Char) : Prop := b ≠ [] ∧ ∀ c ∈ b, isAlnumDash c = true

/-- One or more dot-separated items each satisfying `P`. -/
def dottedForm (P : List Char → Prop) (l : List Char) : Prop :=
  ∃ (first : List Char) (rest : List (List Char)),
    P first ∧ (∀ p ∈ rest, P p) ∧ l = first ++ dotParts rest

/-- The full SemVer shape:
`v? MAJOR.MINOR.PATCH (-prerelease)? (+build)?`. -/
def semverForm (l : List Char) : Prop :=
  ∃ v maj mnr pat pre bld : List Char,
    optV v ∧ numIdForm maj ∧ numIdForm mnr ∧ numIdForm pat ∧
    (pre = [] ∨ ∃ p, dottedForm preIdForm p ∧ pre = '-' :: p) ∧
    (bld = [] ∨ ∃ b, dottedForm buildIdForm b ∧ bld = '+' :: b) ∧
    l = v ++ (maj ++ ('.' :: (mnr ++ ('.' :: (pat ++ (pre ++ bld))))))

theorem numTail_iff (s : List Char) :
    RMatches (.cat (.cls isNonZeroDigit) (.star (.cls Char.isDigit))) s ↔
      ∃ (c : Char) (t : List Char),
        s = c :: t ∧ isNonZeroDigit c = true ∧ ∀ d ∈ t, d.isDigit = true := by
  rw [RMatches.cat_iff]
  constructor
  · rintro ⟨u, v, rfl, hu, hv⟩
    obtain ⟨c, rfl, hc⟩ := (RMatches.cls_iff _ u).mp hu
    rw [clsStar_iff] at hv
    exact ⟨c, v, rfl, hc, hv⟩
  · rintro ⟨c, t, rfl, hc, ht⟩
    exact ⟨[c], t, rfl, .cls hc, (clsStar_iff _ t).mpr ht⟩

theorem alphaTail_iff (s : List Char) :
    RMatches (.cat (.star (.cls Char.isDigit))
      (.cat (.cls isAlphaDash) (.star (.cls isAlnumDash)))) s ↔
      ∃ (d : List Char) (m : Char) (t : List Char),
        s = d ++ m :: t ∧ (∀ c ∈ d, c.isDigit = true) ∧ isAlphaDash m = true ∧
        ∀ c ∈ t, isAlnumDash c = true := by
  rw [RMatches.cat_iff]
  constructor
  · rintro ⟨u, v, rfl, hu, hv⟩
    rw [clsStar_iff] at hu
    obtain ⟨w, x, rfl, hw, hx⟩ := (RMatches.cat_iff _ _ v).mp hv
    obtain ⟨m, rfl, hm⟩ := (RMatches.cls_iff _ w).mp hw
    rw [clsStar_iff] at hx
    exact ⟨u, m, x, rfl, hu, hm, hx⟩
  · rintro ⟨d, m, t, rfl, hd, hm, ht⟩
    refine ⟨d, m :: t, rfl, (clsStar_iff _ d).mpr hd, ?_⟩
    exact RMatches.cat (.cls hm) ((clsStar_iff _ t).mpr ht)

theorem catChr_iff (c : Char) (r : RE) (s : List Char) :
    RMatches (.cat (chr c) r) s ↔ ∃ t, s = c :: t ∧ RMatches r t := by
  rw [RMatches.cat_iff]
  constructor
  · rintro ⟨u, v, rfl, hu, hv⟩
    rw [chr_iff] at hu
    subst hu
    exact ⟨v, rfl, hv⟩
  · rintro ⟨t, rfl, h⟩
    exact ⟨[c], t, rfl, (chr_iff c _).mpr rfl, h⟩

theorem rNumId_iff (s : List Char) : RMatches rNumId s ↔ numIdForm s := by
  unfold rNumId numIdForm
  rw [RMatches.alt_iff, chr_iff, numTail_iff]

theorem rPreId_iff (s : List Char) : RMatches rPreId s ↔ preIdForm s := by
  unfold rPreId preIdForm numIdForm
  rw [RMatches.alt_iff, RMatches.alt_iff, chr_iff, numTail_iff, alphaTail_iff,
    ← or_assoc]

theorem rBuildId_iff (s : List Char) : RMatches rBuildId s ↔ buildIdForm s := by
  unfold rBuildId buildIdForm
  exact clsPlus_iff _ s

theorem rPrerelease_iff (s : List Char) :
    RMatches rPrerelease s ↔ dottedForm preIdForm s := by
  unfold rPrerelease dottedForm dotParts
  exact sepList_iff '.' rPreId preIdForm rPreId_iff s

theorem rBuildMeta_iff (s : List Char) :
    RMatches rBuildMeta s ↔ dottedForm buildIdForm s := by
  unfold rBuildMeta dottedForm dotParts
  exact sepList_iff '.' rBuildId buildIdForm rBuildId_iff s

theorem optDashPre_iff (s : List Char) :
    RMatches (reOpt (.cat (chr '-') rPrerelease)) s ↔
      s = [] ∨ ∃ p, dottedForm preIdForm p ∧ s = '-' :: p := by
  rw [reOpt_iff]
  apply or_congr Iff.rfl
  rw [RMatches.cat_iff]
  constructor
  · rintro ⟨u, v, rfl, hu, hv⟩
    rw [chr_iff] at hu
    subst hu
    exact ⟨v, (rPrerelease_iff v).mp hv, rfl⟩
  · rintro ⟨p, hp, rfl⟩
    exact ⟨['-'], p, rfl, (chr_iff '-' _).mpr rfl, (rPrerelease_iff p).mpr hp⟩

theorem optPlusBuild_iff (s : List Char) :
    RMatches (reOpt (.cat (chr '+') rBuildMeta)) s ↔
      s = [] ∨ ∃ b, dottedForm buildIdForm b ∧ s = '+' :: b := by
  rw [reOpt_iff]
  apply or_congr Iff.rfl
  rw [RMatches.cat_iff]
  constructor
  · rintro ⟨u, v, rfl, hu, hv⟩
    rw [chr_iff] at hu
    subst hu
    exact ⟨v, (rBuildMeta_iff v).mp hv, rfl⟩
  · rintro ⟨b, hb, rfl⟩
    exact ⟨['+'], b, rfl, (chr_iff '+' _).mpr rfl, (rBuildMeta_iff b).mpr hb⟩

/-- The SemVer pattern matches exactly the words of `semverForm`. -/
theorem SEMVER_PATTERN_iff (l : List Char) :
    RMatches SEMVER_PATTERN l ↔ semverForm l := by
  unfold SEMVER_PATTERN
  constructor
  · intro h
    obtain ⟨v, t1, rfl, hv, h1⟩ := (RMatches.cat_iff _ _ _).mp h
    obtain ⟨maj, t2, rfl, hmaj, h2⟩ := (RMatches.cat_iff _ _ _).mp h1
    obtain ⟨t3, rfl, h3⟩ := (catChr_iff '.' _ _).mp h2
    obtain ⟨mnr, t4, rfl, hmnr, h4⟩ := (RMatches.cat_iff _ _ _).mp h3
    obtain ⟨t5, rfl, h5⟩ := (catChr_iff '.' _ _).mp h4
    obtain ⟨pat, t6, rfl, hpat, h6⟩ := (RMatches.cat_iff _ _ _).mp h5
    obtain ⟨pre, bld, rfl, hpre, hbld⟩ := (RMatches.cat_iff _ _ _).mp h6
    exact ⟨v, maj, mnr, pat, pre, bld, (optV_iff v).mp hv, (rNumId_iff maj).mp hmaj,
      (rNumId_iff mnr).mp hmnr, (rNumId_iff pat).mp hpat,
      (optDashPre_iff pre).mp hpre, (optPlusBuild_iff bld).mp hbld, rfl⟩
  · rintro ⟨v, maj, mnr, pat, pre, bld, hv, hmaj, hmnr, hpat, hpre, hbld, rfl⟩
    exact .cat ((optV_iff v).mpr hv) (.cat ((rNumId_iff maj).mpr hmaj)
      ((catChr_iff '.' _ _).mpr ⟨_, rfl, .cat ((rNumId_iff mnr).mpr hmnr)
        ((catChr_iff '.' _ _).mpr ⟨_, rfl, .cat ((rNumId_iff pat).mpr hpat)
          (.cat ((optDashPre_iff pre).mpr hpre)
            ((optPlusBuild_iff bld).mpr hbld))⟩)⟩))

/-- One PVP "deprecated tag". -/
def tagForm (p : List Char) : Prop := p ≠ [] ∧ ∀ c ∈ p, isAlnumChar c = true

/-- `-t₁-t₂…tₙ` for a list of tags. -/
def dashParts (parts : List (List Char)) : List Char :=
  (parts.map ('-' :: ·)).flatten

/-- The optional trailing dash-separated tags. -/
def tagsForm (l : List Char) : Prop :=
  l = [] ∨ ∃ (first : List Char) (rest : List (List Char)),
    tagForm first ∧ (∀ p ∈ rest, tagForm p) ∧ l = '-' :: (first ++ dashParts rest)

/-- The full PVP shape: `v?` plus **two or more** dot-separated digit runs
plus optional tags (the pattern requires at least one dot in the numeric
version). -/
def pvpForm (l : List Char) : Prop :=
  ∃ (v first : List Char) (rest : List (List Char)) (tags : List Char),
    optV v ∧ allDigits first ∧ rest ≠ [] ∧ (∀ p ∈ rest, allDigits p) ∧
    tagsForm tags ∧ l = v ++ ((first ++ dotParts rest) ++ tags)

theorem rPvpNum_iff (s : List Char) :
    RMatches rPvpNum s ↔
      ∃ (first : List Char) (rest : List (List Char)),
        allDigits first ∧ rest ≠ [] ∧ (∀ p ∈ rest, allDigits p) ∧
        s = first ++ dotParts rest := by
  unfold rPvpNum dotParts
  rw [RMatches.cat_iff]
  constructor
  · rintro ⟨u, v, rfl, hu, hv⟩
    obtain ⟨parts, hne, hp, rfl⟩ :=
      (sepPlus_iff '.' rDigits allDigits rDigits_iff v).mp hv
    exact ⟨u, parts, (rDigits_iff u).mp hu, hne, hp, rfl⟩
  · rintro ⟨first, rest, h1, h2, h3, rfl⟩
    exact ⟨first, _, rfl, (rDigits_iff first).mpr h1,
      (sepPlus_iff '.' rDigits allDigits rDigits_iff _).mpr ⟨rest, h2, h3, rfl⟩⟩

theorem rPvpTags_iff (s : List Char) : RMatches rPvpTags s ↔ tagsForm s := by
  unfold rPvpTags tagsForm dashParts
  rw [reOpt_iff]
  apply or_congr Iff.rfl
  rw [RMatches.cat_iff]
  have htag : ∀ t, RMatches (rePlus (.cls isAlnumChar)) t ↔ tagForm t := by
    intro t
    unfold tagForm
    exact clsPlus_iff _ t
  constructor
  · rintro ⟨u, v, rfl, hu, hv⟩
    rw [chr_iff] at hu
    subst hu
    obtain ⟨first, rest, h1, h2, rfl⟩ :=
      (sepList_iff '-' (rePlus (.cls isAlnumChar)) tagForm htag v).mp hv
    exact ⟨first, rest, h1, h2, rfl⟩
  · rintro ⟨first, rest, h1, h2, rfl⟩
    exact ⟨['-'], _, rfl, (chr_iff '-' _).mpr rfl,
      (sepList_iff '-' (rePlus (.cls isAlnumChar)) tagForm htag _).mpr
        ⟨first, rest, h1, h2, rfl⟩⟩

/-- The PVP pattern matches exactly the words of `pvpForm`. -/
theorem PVP_PATTERN_iff (l : List Char) :
    RMatches PVP_PATTERN l ↔ pvpForm l := by
  unfold PVP_PATTERN
  constructor
  · intro h
    obtain ⟨v, t, rfl, hv, h⟩ := (RMatches.cat_iff _ _ _).mp h
    obtain ⟨num, tags, rfl, hnum, htags⟩ := (RMatches.cat_iff _ _ _).mp h
    obtain ⟨first, rest, h1, h2, h3, rfl⟩ := (rPvpNum_iff num).mp hnum
    exact ⟨v, first, rest, tags, (optV_iff v).mp hv, h1, h2, h3,
      (rPvpTags_iff tags).mp htags, rfl⟩
  · rintro ⟨v, first, rest, tags, hv, h1, h2, h3, htags, rfl⟩
    exact .cat ((optV_iff v).mpr hv)
      (.cat ((rPvpNum_iff _).mpr ⟨first, rest, h1, h2, h3, rfl⟩)
        ((rPvpTags_iff tags).mpr htags))

/-! ## The alias tables (lines 15-29) and normalization (lines 178-188) -/

/-- `pep440_pre_map` (lines 15-24): the dictionary as a lookup function. -/
def pep440_pre_map (w : String) : Option String :=
  if w = "alpha" then some "a"
  else if w = "a" then some "a"
  else if w = "beta" then some "b"
  else if w = "b" then some "b"
  else if w = "rc" then some "rc"
  else if w = "c" then some "rc"
  else if w = "preview" then some "rc"
  else if w = "pre" then some "rc"
  else none

/-- `pep440_post_map` (line 29). -/
def pep440_post_map (w : String) : Option String :=
  if w = "post" then some "post"
  else if w = "rev" then some "post"
  else if w = "r" then some "post"
  else none

/-- Python's `str.lower()` on the ASCII range. -/
def pyLower (s : String) : String := String.mk (s.data.map Char.toLower)

/-- Normalization of a captured `pre_l` group (lines 179-182):
lower-case, look up, default to the original spelling. -/
def normalize_pre_label (s : String) : String :=
  (pep440_pre_map (pyLower s)).getD s

/-- Normalization of a captured `post_l` group (lines 184-188). -/
def normalize_post_label (s : String) : String :=
  (pep440_post_map (pyLower s)).getD s

/-! ## Claim C1 -/

/-- C1 counterexample: `is_valid_pep440` accepts `"1.2.3xyz"` although the
whole string is not in the PEP 440 grammar (the full-string match fails):
the pattern has no end anchor and `re.match` anchors only at the start. -/
theorem pep440_trailing_garbage_accepted :
    is_valid_pep440 "1.2.3xyz" = true ∧
    reMatch PEP440_PATTERN (toLowerChars "1.2.3xyz") = false :=
  ⟨rfl, rfl⟩

/-- C1 (amended): `is_valid_pep440` returns `true` iff some initial segment
of the (lower-cased) input conforms to the PEP 440 grammar — optional `v`,
optional `epoch!`, dot-separated release digits, optional pre/post/dev
segments and optional `+local`; trailing text that fits no further segment
is ignored rather than rejected. -/
theorem is_valid_pep440_iff (s : String) :
    is_valid_pep440 s = true ↔
      ∃ p q, toLowerChars s = p ++ q ∧ pep440Form p := by
  unfold is_valid_pep440
  rw [reMatchStart_iff]
  simp only [PEP440_PATTERN_iff]

/-! ## Claim C2 -/

/-- C2 counterexample: a bare integer such as `"1"` is rejected by
`is_valid_pvp`: `PVP_PATTERN` requires at least one dot in its numeric part
(`(?:\.[0-9]+)+`). -/
theorem pvp_rejects_bare_integer : is_valid_pvp "1" = false := rfl

/-- C2 (amended): `is_valid_pvp` accepts exactly the strings made of an
optional (case-insensitive) `v` prefix, **two or more** dot-separated
non-negative integers, and an optional trailing run of dash-separated
alphanumeric tags (a single trailing newline is tolerated by Python's `$`);
in particular a bare integer with no dot is rejected. -/
theorem is_valid_pvp_iff (s : String) :
    is_valid_pvp s = true ↔
      pvpForm (toLowerChars s) ∨
        ∃ t, toLowerChars s = t ++ ['\n'] ∧ pvpForm t := by
  unfold is_valid_pvp
  rw [reMatchDollar_iff]
  simp only [PVP_PATTERN_iff]

/-! ## Claim C3 -/

/-- C3 counterexample: `is_valid_semver` accepts a leading `v`:
`SEMVER_PATTERN` begins with `^v?` and is compiled with `re.IGNORECASE`. -/
theorem semver_accepts_leading_v : is_valid_semver "v1.2.3" = true := rfl

/-- C3 (amended): `is_valid_semver` accepts exactly the strings of the form
`v? MAJOR.MINOR.PATCH (-prerelease)? (+build)?` where the `v` is an optional
case-insensitive prefix, `MAJOR`/`MINOR`/`PATCH` are `0` or no-leading-zero
integers, prerelease identifiers are dot-separated alphanumeric/numeric
identifiers without leading zeros on the numeric ones, and build identifiers
are dot-separated alphanumerics (a single trailing newline is tolerated by
Python's `$`; case-insensitivity is modelled by lower-casing). -/
theorem is_valid_semver_iff (s : String) :
    is_valid_semver s = true ↔
      semverForm (toLowerChars s) ∨
        ∃ t, toLowerChars s = t ++ ['\n'] ∧ semverForm t := by
  unfold is_valid_semver
  rw [reMatchDollar_iff]
  simp only [SEMVER_PATTERN_iff]

/-! ## Claim C4 -/

/-- C4 (confirmed): the grammar's pre-release spellings are exactly
`alpha, a, beta, b, preview, pre, c, rc` — also exactly the domain of
`pep440_pre_map` — and the table maps `alpha,a → a`, `beta,b → b`,
`rc,c,preview,pre → rc`, with no value outside `{a, b, rc}`. -/
theorem pep440_pre_alias_table :
    (∀ s : List Char, RMatches (strAlt pep440PreSpellings) s ↔
        ∃ w ∈ pep440PreSpellings, s = w.data)
    ∧ (∀ w : String, (pep440_pre_map w).isSome = true ↔ w ∈ pep440PreSpellings)
    ∧ normalize_pre_label "alpha" = "a" ∧ normalize_pre_label "a" = "a"
    ∧ normalize_pre_label "beta" = "b" ∧ normalize_pre_label "b" = "b"
    ∧ normalize_pre_label "rc" = "rc" ∧ normalize_pre_label "c" = "rc"
    ∧ normalize_pre_label "preview" = "rc" ∧ normalize_pre_label "pre" = "rc"
    ∧ (∀ w v, pep440_pre_map w = some v → v = "a" ∨ v = "b" ∨ v = "rc") := by
  refine ⟨strAlt_iff pep440PreSpellings, ?_, by decide, by decide, by decide,
    by decide, by decide, by decide, by decide, by decide, ?_⟩
  · intro w
    unfold pep440_pre_map
    split_ifs with h1 h2 h3 h4 h5 h6 h7 h8
    · subst h1; decide
    · subst h2; decide
    · subst h3; decide
    · subst h4; decide
    · subst h5; decide
    · subst h6; decide
    · subst h7; decide
    · subst h8; decide
    · simp [pep440PreSpellings, h1, h2, h3, h4, h5, h6, h7, h8]
  · intro w v h
    unfold pep440_pre_map at h
    split_ifs at h <;> simp_all

/-- C4 witness: the alias table is populated at `"alpha"`. -/
theorem pep440_pre_alias_table_witness :
    (pep440_pre_map "alpha").isSome = true :=
  (pep440_pre_alias_table.2.1 "alpha").mpr (by decide)

/-! ## Claim C5 -/

/-- C5 (confirmed): the post-release group matches exactly either a bare
`-N` (dash plus digits) or a `sep? (post|rev|r) sep? digits?` segment, and
`pep440_post_map` is defined exactly on `post, rev, r`, each mapping to the
canonical label `post`. -/
theorem pep440_post_shapes_and_aliases :
    (∀ s : List Char, RMatches rPostInner s ↔
        postBareForm s ∨
          segForm (fun w => ∃ sp ∈ pep440PostSpellings, w = sp.data) s)
    ∧ (∀ w : String, (pep440_post_map w).isSome = true ↔ w ∈ pep440PostSpellings)
    ∧ pep440_post_map "post" = some "post"
    ∧ pep440_post_map "rev" = some "post"
    ∧ pep440_post_map "r" = some "post"
    ∧ (∀ w v, pep440_post_map w = some v → v = "post") := by
  refine ⟨?_, ?_, by decide, by decide, by decide, ?_⟩
  · intro s
    unfold rPostInner rPostLabeled
    rw [RMatches.alt_iff, rPostBare_iff,
      seg_iff _ _ (strAlt_iff pep440PostSpellings)]
  · intro w
    unfold pep440_post_map
    split_ifs with h1 h2 h3
    · subst h1; decide
    · subst h2; decide
    · subst h3; decide
    · simp [pep440PostSpellings, h1, h2, h3]
  · intro w v h
    unfold pep440_post_map at h
    split_ifs at h <;> simp_all

/-- C5 witness: the post alias table maps `"rev"` to `"post"`. -/
theorem pep440_post_shapes_and_aliases_witness :
    normalize_post_label "rev" = "post" := by
  unfold normalize_post_label
  rw [show pyLower "rev" = "rev" by decide,
    pep440_post_shapes_and_aliases.2.2.2.1]
  rfl

/-! ## Canonical serialization (claim C6)

Modelled from the spec: the canonical ("zerv format") serializer and
deserializer live in the Rust core, which is not part of the sources;
§6 of the spec fixes the payload shape (every optional field explicit
`None`/`Some(value)`), and §4.2 requires `deserialize (serialize m) = m`.
The definitions below realize the `vars` payload of §6 for the
`CanonicalModel` of §3. -/

def digitChar : Nat → Char
  | 0 => '0' | 1 => '1' | 2 => '2' | 3 => '3' | 4 => '4'
  | 5 => '5' | 6 => '6' | 7 => '7' | 8 => '8' | _ => '9'

def digitVal (c : Char) : Nat := c.toNat - 48

/-- Decimal digits of `n`, most significant first. -/
def natDigits (n : Nat) : List Char :=
  if _h : n < 10 then [digitChar n]
  else natDigits (n / 10) ++ [digitChar (n % 10)]
termination_by n
decreasing_by exact Nat.div_lt_self (by omega) (by omega)

def natOfDigits (l : List Char) : Nat :=
  l.foldl (fun a c => 10 * a + digitVal c) 0

theorem digitChar_isDigit : ∀ d, d < 10 → (digitChar d).isDigit = true := by decide

theorem digitVal_digitChar : ∀ d, d < 10 → digitVal (digitChar d) = d := by decide

theorem natOfDigits_concat (l : List Char) (c : Char) :
    natOfDigits (l ++ [c]) = 10 * natOfDigits l + digitVal c := by
  simp [natOfDigits, List.foldl_append]

theorem natDigits_spec (n : Nat) :
    natOfDigits (natDigits n) = n ∧ natDigits n ≠ [] ∧
      ∀ c ∈ natDigits n, c.isDigit = true := by
  induction n using Nat.strong_induction_on with
  | _ n ih =>
    rw [natDigits]
    by_cases h : n < 10
    · rw [dif_pos h]
      refine ⟨?_, by simp, ?_⟩
      · simp [natOfDigits, digitVal_digitChar n h]
      · intro c hc
        simp only [List.mem_singleton] at hc
        subst hc
        exact digitChar_isDigit n h
    · rw [dif_neg h]
      obtain ⟨ih1, ih2, ih3⟩ := ih (n / 10) (Nat.div_lt_self (by omega) (by omega))
      refine ⟨?_, by simp, ?_⟩
      · rw [natOfDigits_concat, ih1, digitVal_digitChar _ (Nat.mod_lt n (by omega))]
        omega
      · intro c hc
        rcases List.mem_append.mp hc with hc | hc
        · exact ih3 c hc
        · simp only [List.mem_singleton] at hc
          subst hc
          exact digitChar_isDigit _ (Nat.mod_lt n (by omega))

/-- Read a maximal digit run (at least one digit). -/
def readNat (l : List Char) : Option (Nat × List Char) :=
  let ds := l.takeWhile Char.isDigit
  if ds = [] then none else some (natOfDigits ds, l.dropWhile Char.isDigit)

theorem takeWhile_all_append_cons (p : Char → Bool) (l : List Char)
    (h : ∀ x ∈ l, p x = true) (c : Char) (hc : p c = false) (t : List Char) :
    (l ++ c :: t).takeWhile p = l := by
  induction l with
  | nil => simp [List.takeWhile_cons, hc]
  | cons a l ih =>
      have ha : p a = true := h a (by simp)
      simp [List.takeWhile_cons, ha, ih fun x hx => h x (by simp [hx])]

theorem dropWhile_all_append_cons (p : Char → Bool) (l : List Char)
    (h : ∀ x ∈ l, p x = true) (c : Char) (hc : p c = false) (t : List Char) :
    (l ++ c :: t).dropWhile p = c :: t := by
  induction l with
  | nil => simp [List.dropWhile_cons, hc]
  | cons a l ih =>
      have ha : p a = true := h a (by simp)
      simp [List.dropWhile_cons, ha, ih fun x hx => h x (by simp [hx])]

theorem readNat_round (n : Nat) (c : Char) (t : List Char)
    (hc : c.isDigit = false) :
    readNat (natDigits n ++ c :: t) = some (n, c :: t) := by
  obtain ⟨h1, h2, h3⟩ := natDigits_spec n
  unfold readNat
  rw [takeWhile_all_append_cons _ _ h3 c hc, dropWhile_all_append_cons _ _ h3 c hc,
    if_neg h2, h1]

/-- Escape `"` and `\` with a backslash (serialization of string values). -/
def escChars : List Char → List Char
  | [] => []
  | c :: t => if c = '"' ∨ c = '\\' then '\\' :: c :: escChars t else c :: escChars t

/-- Read characters up to an unescaped closing quote; the flag records a
pending escape. -/
def readStrAux : Bool → List Char → Option (List Char × List Char)
  | _, [] => none
  | true, d :: rest => (readStrAux false rest).map fun vr => (d :: vr.1, vr.2)
  | false, c :: rest =>
    if c = '"' then some ([], rest)
    else if c = '\\' then readStrAux true rest
    else (readStrAux false rest).map fun vr => (c :: vr.1, vr.2)

def readStrChars (l : List Char) : Option (List Char × List Char) :=
  readStrAux false l

theorem readStrChars_round (s t : List Char) :
    readStrChars (escChars s ++ '"' :: t) = some (s, t) := by
  unfold readStrChars
  induction s with
  | nil => rfl
  | cons c s ih =>
      by_cases hc : c = '"' ∨ c = '\\'
      · have h1 : escChars (c :: s) = '\\' :: c :: escChars s := by
          rw [escChars, if_pos hc]
        rw [h1]
        show (readStrAux false (escChars s ++ '"' :: t)).map
            (fun vr => (c :: vr.1, vr.2)) = some (c :: s, t)
        rw [ih]
        rfl
      · have h1 : escChars (c :: s) = c :: escChars s := by
          rw [escChars, if_neg hc]
        push_neg at hc
        rw [h1]
        simp only [List.cons_append, readStrAux, List.append_eq]
        rw [if_neg hc.1, if_neg hc.2, ih]
        rfl

/-- Modelled from the spec (§3): the pre-release label is a closed variant
`{Alpha, Beta, RC}`. -/
inductive PreLabel where
  | alpha : PreLabel
  | beta : PreLabel
  | rc : PreLabel
deriving DecidableEq

/-- Modelled from the spec (§3): `pre_release` is a label plus an optional
number. -/
structure PreRelease where
  label : PreLabel
  number : Option Nat
deriving DecidableEq

/-- Modelled from the spec (§3): the superset value type holding every field
used by any grammar or VCS context. -/
structure CanonicalModel where
  epoch : Option Nat
  major : Nat
  minor : Nat
  patch : Nat
  pre_release : Option PreRelease
  post : Option Nat
  dev : Option Nat
  distance : Option Nat
  dirty : Option Bool
  bumped_branch : Option String
  bumped_commit_hash : Option String
  bumped_timestamp : Option Nat
  last_branch : Option String
  last_commit_hash : Option String
  last_timestamp : Option Nat
  last_tag_version : Option String
  custom : List (String × String)
deriving DecidableEq

/-! ### Printers (continuation style, over `List Char`) -/

def pStr (w : String) (rest : List Char) : List Char := w.data ++ rest

def pQuoted (s : String) (rest : List Char) : List Char :=
  '"' :: (escChars s.data ++ ('"' :: rest))

def pSomeNat (n : Nat) (rest : List Char) : List Char :=
  pStr "Some(" (natDigits n ++ (')' :: rest))

def pOptNat : Option Nat → List Char → List Char
  | none, rest => pStr "None" rest
  | some n, rest => pSomeNat n rest

def pBool : Bool → List Char → List Char
  | true, rest => pStr "true" rest
  | false, rest => pStr "false" rest

def pOptBool : Option Bool → List Char → List Char
  | none, rest => pStr "None" rest
  | some b, rest => pStr "Some(" (pBool b (')' :: rest))

def pOptStr : Option String → List Char → List Char
  | none, rest => pStr "None" rest
  | some s, rest => pStr "Some(" (pQuoted s (')' :: rest))

def pLabel : PreLabel → List Char → List Char
  | .alpha, rest => pStr "Alpha" rest
  | .beta, rest => pStr "Beta" rest
  | .rc, rest => pStr "RC" rest

def pOptPre : Option PreRelease → List Char → List Char
  | none, rest => pStr "None" rest
  | some pr, rest =>
      pStr "Some((" (pLabel pr.label (pStr ", " (pOptNat pr.number (pStr "))" rest))))

def pCustomEntry (e : String × String) (rest : List Char) : List Char :=
  pQuoted e.1 (pStr ": " (pQuoted e.2 (pStr ", " rest)))

/-- Entries of the `custom` mapping followed by the closing parenthesis. -/
def pCustom : List (String × String) → List Char → List Char
  | [], rest => ')' :: rest
  | e :: t, rest => pCustomEntry e (pCustom t rest)

/-- Modelled from the spec (§6): the `vars` payload of the canonical "zerv"
serialization — every optional field explicit `None`/`Some(…)`. -/
def serializeChars (m : CanonicalModel) : List Char :=
  pStr "(major: " (pSomeNat m.major (
  pStr ", minor: " (pSomeNat m.minor (
  pStr ", patch: " (pSomeNat m.patch (
  pStr ", epoch: " (pOptNat m.epoch (
  pStr ", pre_release: " (pOptPre m.pre_release (
  pStr ", post: " (pOptNat m.post (
  pStr ", dev: " (pOptNat m.dev (
  pStr ", distance: " (pOptNat m.distance (
  pStr ", dirty: " (pOptBool m.dirty (
  pStr ", bumped_branch: " (pOptStr m.bumped_branch (
  pStr ", bumped_commit_hash: " (pOptStr m.bumped_commit_hash (
  pStr ", bumped_timestamp: " (pOptNat m.bumped_timestamp (
  pStr ", last_branch: " (pOptStr m.last_branch (
  pStr ", last_commit_hash: " (pOptStr m.last_commit_hash (
  pStr ", last_timestamp: " (pOptNat m.last_timestamp (
  pStr ", last_tag_version: " (pOptStr m.last_tag_version (
  pStr ", custom: (" (pCustom m.custom [')'])))))))))))))))))))))))))))))))))

def serialize (m : CanonicalModel) : String := String.mk (serializeChars m)

/-! ### Readers -/

def expectL : List Char → List Char → Option (List Char)
  | [], s => some s
  | _ :: _, [] => none
  | c :: w, d :: s => if d = c then expectL w s else none

def expectS (w : String) (s : List Char) : Option (List Char) := expectL w.data s

theorem expectL_append (w s : List Char) : expectL w (w ++ s) = some s := by
  induction w with
  | nil => rfl
  | cons c w ih => simpa [expectL] using ih

theorem expectS_pStr (w : String) (s : List Char) :
    expectS w (pStr w s) = some s :=
  expectL_append w.data s

def readSomeNat (s : List Char) : Option (Nat × List Char) :=
  (expectS "Some(" s).bind fun s1 =>
    (readNat s1).bind fun nr =>
      (expectS ")" nr.2).map fun s2 => (nr.1, s2)

def readOptNat (s : List Char) : Option (Option Nat × List Char) :=
  match expectS "None" s with
  | some r => some (none, r)
  | none => (readSomeNat s).map fun nr => (some nr.1, nr.2)

def readBool (s : List Char) : Option (Bool × List Char) :=
  match expectS "true" s with
  | some r => some (true, r)
  | none => (expectS "false" s).map fun r => (false, r)

def readOptBool (s : List Char) : Option (Option Bool × List Char) :=
  match expectS "None" s with
  | some r => some (none, r)
  | none =>
    (expectS "Some(" s).bind fun s1 =>
      (readBool s1).bind fun br =>
        (expectS ")" br.2).map fun s2 => (some br.1, s2)

def readQuoted (s : List Char) : Option (String × List Char) :=
  match s with
  | '"' :: r => (readStrChars r).map fun vr => (String.mk vr.1, vr.2)
  | _ => none

def readOptStr (s : List Char) : Option (Option String × List Char) :=
  match expectS "None" s with
  | some r => some (none, r)
  | none =>
    (expectS "Some(" s).bind fun s1 =>
      (readQuoted s1).bind fun vr =>
        (expectS ")" vr.2).map fun s2 => (some vr.1, s2)

def readLabel (s : List Char) : Option (PreLabel × List Char) :=
  match expectS "Alpha" s with
  | some r => some (.alpha, r)
  | none =>
    match expectS "Beta" s with
    | some r => some (.beta, r)
    | none => (expectS "RC" s).map fun r => (.rc, r)

def readOptPre (s : List Char) : Option (Option PreRelease × List Char) :=
  match expectS "None" s with
  | some r => some (none, r)
  | none =>
    (expectS "Some((" s).bind fun s1 =>
      (readLabel s1).bind fun lr =>
        (expectS ", " lr.2).bind fun s2 =>
          (readOptNat s2).bind fun nr =>
            (expectS "))" nr.2).map fun s3 => (some ⟨lr.1, nr.1⟩, s3)

def readEntries : Nat → List Char → Option (List (String × String) × List Char)
  | 0, _ => none
  | _ + 1, [] => none
  | fuel + 1, c :: r =>
    if c = ')' then some ([], r)
    else
      (readQuoted (c :: r)).bind fun kv =>
        (expectS ": " kv.2).bind fun s2 =>
          (readQuoted s2).bind fun vv =>
            (expectS ", " vv.2).bind fun s4 =>
              (readEntries fuel s4).map fun er => ((kv.1, vv.1) :: er.1, er.2)

def readCustom (s : List Char) : Option (List (String × String) × List Char) :=
  readEntries (s.length + 1) s

/-- First stage of deserialization: `major`, `minor`, `patch`, `epoch`. -/
def readCore (s : List Char) :
    Option ((Nat × Nat × Nat × Option Nat) × List Char) :=
  (expectS "(major: " s).bind fun s =>
  (readSomeNat s).bind fun ma =>
  (expectS ", minor: " ma.2).bind fun s =>
  (readSomeNat s).bind fun mi =>
  (expectS ", patch: " mi.2).bind fun s =>
  (readSomeNat s).bind fun pa =>
  (expectS ", epoch: " pa.2).bind fun s =>
  (readOptNat s).bind fun ep =>
  some ((ma.1, mi.1, pa.1, ep.1), ep.2)

/-- Second stage: `pre_release`, `post`, `dev`, `distance`, `dirty`. -/
def readExtra (s : List Char) :
    Option ((Option PreRelease × Option Nat × Option Nat × Option Nat × Option Bool) ×
      List Char) :=
  (expectS ", pre_release: " s).bind fun s =>
  (readOptPre s).bind fun pr =>
  (expectS ", post: " pr.2).bind fun s =>
  (readOptNat s).bind fun po =>
  (expectS ", dev: " po.2).bind fun s =>
  (readOptNat s).bind fun dv =>
  (expectS ", distance: " dv.2).bind fun s =>
  (readOptNat s).bind fun di =>
  (expectS ", dirty: " di.2).bind fun s =>
  (readOptBool s).bind fun dy =>
  some ((pr.1, po.1, dv.1, di.1, dy.1), dy.2)

/-- Third stage: the `bumped_*` context fields. -/
def readBumped (s : List Char) :
    Option ((Option String × Option String × Option Nat) × List Char) :=
  (expectS ", bumped_branch: " s).bind fun s =>
  (readOptStr s).bind fun bb =>
  (expectS ", bumped_commit_hash: " bb.2).bind fun s =>
  (readOptStr s).bind fun bch =>
  (expectS ", bumped_timestamp: " bch.2).bind fun s =>
  (readOptNat s).bind fun bts =>
  some ((bb.1, bch.1, bts.1), bts.2)

/-- Fourth stage: the `last_*` context fields. -/
def readLastCtx (s : List Char) :
    Option ((Option String × Option String × Option Nat × Option String) ×
      List Char) :=
  (expectS ", last_branch: " s).bind fun s =>
  (readOptStr s).bind fun lb =>
  (expectS ", last_commit_hash: " lb.2).bind fun s =>
  (readOptStr s).bind fun lch =>
  (expectS ", last_timestamp: " lch.2).bind fun s =>
  (readOptNat s).bind fun lts =>
  (expectS ", last_tag_version: " lts.2).bind fun s =>
  (readOptStr s).bind fun ltv =>
  some ((lb.1, lch.1, lts.1, ltv.1), ltv.2)

/-- Last stage: the `custom` mapping and the closing parenthesis. -/
def readTailCtx (s : List Char) :
    Option (List (String × String) × List Char) :=
  (expectS ", custom: (" s).bind fun s =>
  (readCustom s).bind fun cu =>
  (expectS ")" cu.2).map fun s2 => (cu.1, s2)

/-- Modelled from the spec (§6/§7): deserialization of the `vars` payload;
a malformed payload fails atomically (`none`). -/
def deserializeChars (s : List Char) : Option CanonicalModel :=
  (readCore s).bind fun cr =>
  (readExtra cr.2).bind fun er =>
  (readBumped er.2).bind fun br =>
  (readLastCtx br.2).bind fun lr =>
  (readTailCtx lr.2).bind fun tr =>
  if tr.2 = [] then
    some ⟨cr.1.2.2.2, cr.1.1, cr.1.2.1, cr.1.2.2.1, er.1.1, er.1.2.1, er.1.2.2.1,
      er.1.2.2.2.1, er.1.2.2.2.2, br.1.1, br.1.2.1, br.1.2.2, lr.1.1, lr.1.2.1,
      lr.1.2.2.1, lr.1.2.2.2, tr.1⟩
  else none

def deserialize (s : String) : Option CanonicalModel := deserializeChars s.data

/-! ### Round-trip lemmas -/

theorem optBind_some (a : α) (f : α → Option β) :
    (some a).bind f = f a := rfl

theorem string_mk_data (s : String) : String.mk s.data = s := rfl

theorem readSomeNat_pSomeNat (n : Nat) (rest : List Char) :
    readSomeNat (pSomeNat n rest) = some (n, rest) := by
  unfold readSomeNat pSomeNat
  rw [expectS_pStr, optBind_some, readNat_round n ')' rest (by decide), optBind_some]
  rfl

theorem readOptNat_pOptNat (v : Option Nat) (rest : List Char) :
    readOptNat (pOptNat v rest) = some (v, rest) := by
  cases v with
  | none =>
      unfold readOptNat pOptNat
      rw [expectS_pStr]
  | some n =>
      unfold readOptNat pOptNat
      rw [show expectS "None" (pSomeNat n rest) = none from rfl,
        readSomeNat_pSomeNat]
      rfl

theorem readBool_pBool (b : Bool) (rest : List Char) :
    readBool (pBool b rest) = some (b, rest) := by
  cases b with
  | true =>
      unfold readBool pBool
      rw [expectS_pStr]
  | false =>
      unfold readBool pBool
      rw [show expectS "true" (pStr "false" rest) = none from rfl, expectS_pStr]
      rfl

theorem readOptBool_pOptBool (v : Option Bool) (rest : List Char) :
    readOptBool (pOptBool v rest) = some (v, rest) := by
  cases v with
  | none =>
      unfold readOptBool pOptBool
      rw [expectS_pStr]
  | some b =>
      unfold readOptBool pOptBool
      rw [show expectS "None" (pStr "Some(" (pBool b (')' :: rest))) = none from by
          cases b <;> rfl,
        expectS_pStr, optBind_some, readBool_pBool, optBind_some]
      rfl

theorem readQuoted_pQuoted (s : String) (rest : List Char) :
    readQuoted (pQuoted s rest) = some (s, rest) := by
  unfold pQuoted readQuoted
  show (readStrChars (escChars s.data ++ ('"' :: rest))).map
      (fun vr => (String.mk vr.1, vr.2)) = some (s, rest)
  rw [readStrChars_round]
  simp [string_mk_data]

theorem readOptStr_pOptStr (v : Option String) (rest : List Char) :
    readOptStr (pOptStr v rest) = some (v, rest) := by
  cases v with
  | none =>
      unfold readOptStr pOptStr
      rw [expectS_pStr]
  | some s =>
      unfold readOptStr pOptStr
      rw [show expectS "None" (pStr "Some(" (pQuoted s (')' :: rest))) = none from by
          unfold pQuoted
          rfl,
        expectS_pStr, optBind_some, readQuoted_pQuoted, optBind_some]
      rfl

theorem readLabel_pLabel (lb : PreLabel) (rest : List Char) :
    readLabel (pLabel lb rest) = some (lb, rest) := by
  cases lb with
  | alpha =>
      unfold readLabel pLabel
      rw [expectS_pStr]
  | beta =>
      unfold readLabel pLabel
      rw [show expectS "Alpha" (pStr "Beta" rest) = none from rfl, expectS_pStr]
  | rc =>
      unfold readLabel pLabel
      rw [show expectS "Alpha" (pStr "RC" rest) = none from rfl,
        show expectS "Beta" (pStr "RC" rest) = none from rfl, expectS_pStr]
      rfl

theorem readOptPre_pOptPre (v : Option PreRelease) (rest : List Char) :
    readOptPre (pOptPre v rest) = some (v, rest) := by
  cases v with
  | none =>
      unfold readOptPre pOptPre
      rw [expectS_pStr]
  | some pr =>
      unfold readOptPre pOptPre
      rw [show expectS "None"
            (pStr "Some((" (pLabel pr.label
              (pStr ", " (pOptNat pr.number (pStr "))" rest))))) = none from rfl,
        expectS_pStr, optBind_some, readLabel_pLabel, optBind_some,
        expectS_pStr, optBind_some, readOptNat_pOptNat, optBind_some,
        expectS_pStr]
      rfl

theorem pCustomEntry_length (e : String × String) (acc : List Char) :
    acc.length < (pCustomEntry e acc).length := by
  simp only [pCustomEntry, pQuoted, pStr, List.length_cons, List.length_append]
  omega

theorem pCustom_length_ge (es : List (String × String)) (rest : List Char) :
    es.length < (pCustom es rest).length + 1 := by
  induction es with
  | nil => simp
  | cons e t ih =>
      have h := pCustomEntry_length e (pCustom t rest)
      simp only [pCustom, List.length_cons]
      omega

theorem readEntries_pCustom (es : List (String × String)) (rest : List Char)
    (fuel : Nat) (hf : es.length < fuel) :
    readEntries fuel (pCustom es rest) = some (es, rest) := by
  induction es generalizing rest fuel with
  | nil =>
      cases fuel with
      | zero => omega
      | succ k =>
          show readEntries (k + 1) (')' :: rest) = some ([], rest)
          rw [readEntries]
          rw [if_pos rfl]
  | cons e t ih =>
      cases fuel with
      | zero => omega
      | succ k =>
          have hshape : pCustom (e :: t) rest =
              '"' :: (escChars e.1.data ++
                ('"' :: pStr ": " (pQuoted e.2 (pStr ", " (pCustom t rest))))) := rfl
          rw [hshape, readEntries, if_neg (by decide)]
          rw [show readQuoted ('"' :: (escChars e.1.data ++
              ('"' :: pStr ": " (pQuoted e.2 (pStr ", " (pCustom t rest)))))) =
              (readStrChars (escChars e.1.data ++
                ('"' :: pStr ": " (pQuoted e.2 (pStr ", " (pCustom t rest)))))).map
                (fun vr => (String.mk vr.1, vr.2)) from rfl,
            readStrChars_round]
          simp only [Option.map_some', optBind_some]
          rw [string_mk_data, expectS_pStr, optBind_some, readQuoted_pQuoted,
            optBind_some, expectS_pStr, optBind_some,
            ih rest k (by simpa using Nat.lt_of_succ_lt_succ hf)]
          rfl

theorem readCustom_pCustom (es : List (String × String)) (rest : List Char) :
    readCustom (pCustom es rest) = some (es, rest) :=
  readEntries_pCustom es rest _ (pCustom_length_ge es rest)

theorem readCore_round (a b c : Nat) (e : Option Nat) (rest : List Char) :
    readCore (pStr "(major: " (pSomeNat a (pStr ", minor: " (pSomeNat b
      (pStr ", patch: " (pSomeNat c (pStr ", epoch: " (pOptNat e rest)))))))) =
      some ((a, b, c, e), rest) := by
  unfold readCore
  rw [expectS_pStr, optBind_some, readSomeNat_pSomeNat, optBind_some,
    expectS_pStr, optBind_some, readSomeNat_pSomeNat, optBind_some,
    expectS_pStr, optBind_some, readSomeNat_pSomeNat, optBind_some,
    expectS_pStr, optBind_some, readOptNat_pOptNat, optBind_some]

theorem readExtra_round (pr : Option PreRelease) (po dv di : Option Nat)
    (dy : Option Bool) (rest : List Char) :
    readExtra (pStr ", pre_release: " (pOptPre pr (pStr ", post: " (pOptNat po
      (pStr ", dev: " (pOptNat dv (pStr ", distance: " (pOptNat di
        (pStr ", dirty: " (pOptBool dy rest)))))))))) =
      some ((pr, po, dv, di, dy), rest) := by
  unfold readExtra
  rw [expectS_pStr, optBind_some, readOptPre_pOptPre, optBind_some,
    expectS_pStr, optBind_some, readOptNat_pOptNat, optBind_some,
    expectS_pStr, optBind_some, readOptNat_pOptNat, optBind_some,
    expectS_pStr, optBind_some, readOptNat_pOptNat, optBind_some,
    expectS_pStr, optBind_some, readOptBool_pOptBool, optBind_some]

theorem readBumped_round (bb bch : Option String) (bts : Option Nat)
    (rest : List Char) :
    readBumped (pStr ", bumped_branch: " (pOptStr bb
      (pStr ", bumped_commit_hash: " (pOptStr bch
        (pStr ", bumped_timestamp: " (pOptNat bts rest)))))) =
      some ((bb, bch, bts), rest) := by
  unfold readBumped
  rw [expectS_pStr, optBind_some, readOptStr_pOptStr, optBind_some,
    expectS_pStr, optBind_some, readOptStr_pOptStr, optBind_some,
    expectS_pStr, optBind_some, readOptNat_pOptNat, optBind_some]

theorem readLastCtx_round (lb lch : Option String) (lts : Option Nat)
    (ltv : Option String) (rest : List Char) :
    readLastCtx (pStr ", last_branch: " (pOptStr lb
      (pStr ", last_commit_hash: " (pOptStr lch
        (pStr ", last_timestamp: " (pOptNat lts
          (pStr ", last_tag_version: " (pOptStr ltv rest)))))))) =
      some ((lb, lch, lts, ltv), rest) := by
  unfold readLastCtx
  rw [expectS_pStr, optBind_some, readOptStr_pOptStr, optBind_some,
    expectS_pStr, optBind_some, readOptStr_pOptStr, optBind_some,
    expectS_pStr, optBind_some, readOptNat_pOptNat, optBind_some,
    expectS_pStr, optBind_some, readOptStr_pOptStr, optBind_some]

theorem readTailCtx_round (es : List (String × String)) (rest : List Char) :
    readTailCtx (pStr ", custom: (" (pCustom es (')' :: rest))) =
      some (es, rest) := by
  unfold readTailCtx
  rw [expectS_pStr, optBind_some, readCustom_pCustom, optBind_some]
  rfl

/-- C6 (confirmed, modelled from the spec): deserializing the canonical
serialization of any `CanonicalModel` yields exactly that model, including
the `None` vs `Some(0)` distinction on every optional field. -/
theorem deserialize_serialize (m : CanonicalModel) :
    deserialize (serialize m) = some m := by
  unfold deserialize serialize
  rw [show (String.mk (serializeChars m)).data = serializeChars m from rfl]
  unfold serializeChars deserializeChars
  rw [readCore_round, optBind_some, readExtra_round, optBind_some,
    readBumped_round, optBind_some, readLastCtx_round, optBind_some,
    show pCustom m.custom [')'] = pCustom m.custom (')' :: []) from rfl,
    readTailCtx_round, optBind_some, if_pos rfl]

/-! ## The Python binding (`src/python/zerv/__init__.py`) -/

/-- Python's whitespace set for `str.strip()`. -/
def isPyWs (c : Char) : Bool :=
  c = ' ' || c = '\t' || c = '\n' || c = '\r' || c = '\x0b' || c = '\x0c'

/-- Python's `str.strip()`: remove leading and trailing whitespace. -/
def pyStrip (s : String) : String :=
  String.mk (((s.data.dropWhile isPyWs).reverse.dropWhile isPyWs).reverse)

/-- Modelled from the spec (§4.4): with an `output_prefix`, the rendered
output is the prefix prepended verbatim to the rendered version, in every
output format; the CLI prints it followed by a newline. -/
def zervStdout (pfx rendered : String) : String := pfx ++ rendered ++ "\n"

/-- What the Python `version(...)` binding returns for that stdout:
`_run_zerv_command` returns `result.stdout.strip()` (line 103). -/
def versionReturned (pfx rendered : String) : String :=
  pyStrip (zervStdout pfx rendered)

/-- True iff the string does not begin with Python whitespace. -/
def noLeadingWs (s : String) : Bool :=
  match s.data with
  | [] => true
  | c :: _ => !isPyWs c

theorem dropWhile_append_left (p : Char → Bool) (a b : List Char)
    (h : ∃ c ∈ a, p c = false) :
    (a ++ b).dropWhile p = a.dropWhile p ++ b := by
  induction a with
  | nil =>
      obtain ⟨c, hc, _⟩ := h
      cases hc
  | cons x a ih =>
      by_cases hx : p x = true
      · obtain ⟨c, hc, hpc⟩ := h
        have hca : c ∈ a := by
          rcases List.mem_cons.mp hc with rfl | hca
          · rw [hx] at hpc; cases hpc
          · exact hca
        simp only [List.cons_append, List.dropWhile_cons, hx, if_true]
        exact ih ⟨c, hca, hpc⟩
      · simp [List.dropWhile_cons, hx]

/-! ## Claim C7 -/

/-- C7 counterexample: with the whitespace output prefix `" "`, the string
returned by the binding is `"1.2.3"`, which does not begin with that
prefix — `stdout.strip()` removes it. -/
theorem version_ws_output_pfx_lost :
    versionReturned " " "1.2.3" = "1.2.3" ∧
    ∀ t : List Char, ("1.2.3" : String).data ≠ (" " : String).data ++ t := by
  constructor
  · rfl
  · intro t h
    simp at h

/-- C7 (corrected, renderer modelled from the spec): the rendered output
carries the prefix verbatim, but the binding strips leading and trailing
whitespace from stdout; the returned string begins with the prefix verbatim
whenever the prefix does not itself begin with whitespace and the rendered
version contains at least one non-whitespace character. -/
theorem version_output_pfx_verbatim (pfx rendered : String)
    (h1 : noLeadingWs pfx = true)
    (h2 : ∃ c ∈ rendered.data, isPyWs c = false) :
    ∃ t, (versionReturned pfx rendered).data = pfx.data ++ t := by
  unfold versionReturned zervStdout pyStrip
  rw [show (String.mk
      ((((pfx ++ rendered ++ "\n").data.dropWhile isPyWs).reverse.dropWhile
        isPyWs).reverse)).data =
      (((pfx ++ rendered ++ "\n").data.dropWhile isPyWs).reverse.dropWhile
        isPyWs).reverse from rfl,
    String.data_append, String.data_append]
  simp only [List.append_assoc]
  cases hp : pfx.data with
  | nil =>
      simp only [List.nil_append]
      exact ⟨_, rfl⟩
  | cons c p =>
      have hc : isPyWs c = false := by
        unfold noLeadingWs at h1
        rw [hp] at h1
        simpa using h1
      have hx : ∃ d ∈ (rendered.data ++ ['\n']).reverse, isPyWs d = false := by
        obtain ⟨d, hd, hpd⟩ := h2
        exact ⟨d, by simp [hd], hpd⟩
      have hstep : List.dropWhile isPyWs
          (c :: (p ++ (rendered.data ++ ['\n']))) =
          c :: (p ++ (rendered.data ++ ['\n'])) := by
        rw [List.dropWhile_cons, hc]
        simp
      rw [show c :: p ++ (rendered.data ++ ['\n']) =
          c :: (p ++ (rendered.data ++ ['\n'])) from rfl, hstep,
        show (c :: (p ++ (rendered.data ++ ['\n']))).reverse =
          (rendered.data ++ ['\n']).reverse ++ (c :: p).reverse from by
          simp,
        dropWhile_append_left _ _ _ hx, List.reverse_append, List.reverse_reverse]
      exact ⟨_, rfl⟩

/-- C7 witness: with prefix `"v"` and rendered version `"1.2.3"`, the
returned string begins with `"v"`. -/
theorem version_output_pfx_verbatim_witness :
    ∃ t, (versionReturned "v" "1.2.3").data = ("v" : String).data ++ t :=
  version_output_pfx_verbatim "v" "1.2.3" (by decide) (by decide)

/-! ## Claim C8 -/

/-- The observable outcome of `subprocess.run`. -/
structure CompletedProcess where
  returncode : Int
  stdout : String
  stderr : String

/-- `_run_zerv_command` (lines 92-103): raise on nonzero exit, else return
`stdout.strip()`. -/
def run_zerv_command (r : CompletedProcess) : Except String String :=
  if r.returncode ≠ 0 then .error ("zerv command failed: " ++ r.stderr)
  else .ok (pyStrip r.stdout)

/-- C8 (confirmed): the binding returns an output string exactly when the
process exits with code 0; on any nonzero exit it returns no output and
surfaces an error carrying the process's standard error. -/
theorem run_zerv_command_spec (r : CompletedProcess) :
    ((∃ out, run_zerv_command r = .ok out) ↔ r.returncode = 0) ∧
    (r.returncode ≠ 0 →
      run_zerv_command r = .error ("zerv command failed: " ++ r.stderr)) ∧
    (r.returncode = 0 → run_zerv_command r = .ok (pyStrip r.stdout)) := by
  refine ⟨⟨?_, ?_⟩, ?_, ?_⟩
  · rintro ⟨out, hout⟩
    by_contra h
    rw [run_zerv_command, if_pos h] at hout
    cases hout
  · intro h
    rw [run_zerv_command, if_neg (by simp [h])]
    exact ⟨_, rfl⟩
  · intro h
    rw [run_zerv_command, if_pos h]
  · intro h
    rw [run_zerv_command, if_neg (by simp [h])]

/-- C8 witness: exit code 1 with stderr `"boom"` yields the error, and exit
code 0 yields the stripped stdout. -/
theorem run_zerv_command_spec_witness :
    run_zerv_command ⟨1, "", "boom"⟩ = .error ("zerv command failed: " ++ "boom") ∧
    run_zerv_command ⟨0, "1.2.3\n", ""⟩ = .ok (pyStrip "1.2.3\n") :=
  ⟨(run_zerv_command_spec ⟨1, "", "boom"⟩).2.1 (by decide),
   (run_zerv_command_spec ⟨0, "1.2.3\n", ""⟩).2.2 rfl⟩

/-! ## Claim C9 -/

/-- `MyBakebook._version` (src/bakefile.py lines 192-206); `zerv.render`
(the Rust binary) is modelled as an abstract rendering function. -/
def bakebook_version (render : String → String)
    (cargo_raw pyproject_raw : String) : Except String String :=
  if render pyproject_raw ≠ render cargo_raw then
    .error ("Version mismatch: pyproject.toml=" ++ pyproject_raw ++ " (" ++
      render pyproject_raw ++ "), Cargo.toml=" ++ cargo_raw ++ " (" ++
      render cargo_raw ++ ")")
  else .ok cargo_raw

/-- C9 (confirmed): `_version` returns the Cargo.toml version string when the
two SemVer renderings agree, and on disagreement returns no version string
and fails with the version-mismatch error. -/
theorem bakebook_version_spec (render : String → String)
    (cargo_raw pyproject_raw : String) :
    (render pyproject_raw = render cargo_raw →
      bakebook_version render cargo_raw pyproject_raw = .ok cargo_raw) ∧
    (render pyproject_raw ≠ render cargo_raw →
      (∀ v, bakebook_version render cargo_raw pyproject_raw ≠ .ok v) ∧
      bakebook_version render cargo_raw pyproject_raw =
        .error ("Version mismatch: pyproject.toml=" ++ pyproject_raw ++ " (" ++
          render pyproject_raw ++ "), Cargo.toml=" ++ cargo_raw ++ " (" ++
          render cargo_raw ++ ")")) := by
  constructor
  · intro h
    rw [bakebook_version, if_neg (by simp [h])]
  · intro h
    refine ⟨?_, ?_⟩
    · intro v hv
      rw [bakebook_version, if_pos h] at hv
      cases hv
    · rw [bakebook_version, if_pos h]

/-- C9 witness: equal renderings return the Cargo version. -/
theorem bakebook_version_spec_witness :
    bakebook_version id "1.2.3" "1.2.3" = .ok "1.2.3" :=
  (bakebook_version_spec id "1.2.3" "1.2.3").1 rfl

/-! ## Claim C10 -/

/-- The Python values passed as flag values in the binding. -/
inductive PyVal where
  | pyNone : PyVal
  | pyBool (b : Bool) : PyVal
  | pyStr (s : String) : PyVal
  | pyInt (n : Int) : PyVal

/-- `_extend_args` (lines 80-89): `None`/`False` skipped, `True` appends the
flag alone, anything else appends the flag and `str(value)`. -/
def extend_args (args : List String) (flags : List (String × PyVal)) :
    List String :=
  match flags with
  | [] => args
  | (flag, v) :: rest =>
    match v with
    | .pyNone => extend_args args rest
    | .pyBool false => extend_args args rest
    | .pyBool true => extend_args (args ++ [flag]) rest
    | .pyStr s => extend_args (args ++ [flag, s]) rest
    | .pyInt n => extend_args (args ++ [flag, toString n]) rest

/-- The command-line contribution of one `(flag, value)` pair. -/
def flagContrib : String × PyVal → List String
  | (_, .pyNone) => []
  | (_, .pyBool false) => []
  | (flag, .pyBool true) => [flag]
  | (flag, .pyStr s) => [flag, s]
  | (flag, .pyInt n) => [flag, toString n]

/-- C10 (confirmed): `_extend_args` is deterministic and order-preserving —
it appends, in order, each pair's contribution (`None`/`False` nothing,
`True` the flag alone, otherwise flag then `str(value)`) — and a `False`
boolean value yields exactly the same command line as the omitted-option
default `None`. -/
theorem extend_args_spec :
    (∀ args flags, extend_args args flags =
      args ++ (flags.map flagContrib).flatten) ∧
    (∀ args pre flag suf,
      extend_args args (pre ++ (flag, PyVal.pyBool false) :: suf) =
        extend_args args (pre ++ (flag, PyVal.pyNone) :: suf)) := by
  have hmain : ∀ flags args, extend_args args flags =
      args ++ (flags.map flagContrib).flatten := by
    intro flags
    induction flags with
    | nil => intro args; simp [extend_args]
    | cons fv rest ih =>
        intro args
        obtain ⟨flag, v⟩ := fv
        cases v with
        | pyNone => simp [extend_args, flagContrib, ih]
        | pyBool b => cases b <;> simp [extend_args, flagContrib, ih]
        | pyStr s => simp [extend_args, flagContrib, ih]
        | pyInt n => simp [extend_args, flagContrib, ih]
  refine ⟨fun args flags => hmain flags args, ?_⟩
  intro args pre flag suf
  rw [hmain, hmain]
  simp [flagContrib]
